/-
  Verification of the MCP-Server repository (TypeScript, `src/server.ts`):
  a TCP server speaking newline-delimited JSON.  We shallowly embed the
  JavaScript runtime values manipulated by the program, the JSON
  parser/serializer (`JSON.parse` / `JSON.stringify`), the connection
  framer (`socket.on("data")` handler), the dispatcher
  (`MCPServer.handleMessage`) and the pure tool handlers (`echo`,
  `calculate`, `jsonProcess`), and prove the specification's claims
  about them.

  Modelling conventions:
  * JavaScript numbers are modelled as exact rationals (`ℚ`).  The
    program performs no floating-point-specific operations in any claim
    (NaN/Infinity/rounding never arise in the verified statements).
  * JavaScript strings are sequences of `Char`; TCP chunks are modelled
    as the already-decoded text appended by `buffer += data.toString()`
    (chunk boundaries are assumed to respect character boundaries, as in
    all of the specification's examples).
  * The `data` listener is an `async` function that Node does not
    await.  `processChunks` models the sequential execution in which
    each invocation runs to completion before the next chunk — exact
    whenever no dispatched handler suspends on I/O.  The async model
    (`asyncWrites`) additionally models the suspension at
    `await this.handleMessage` for the `fs`-backed tools, under the
    admissible schedule in which I/O completions are delivered after
    the already-queued `data` events.
  * Fallible JavaScript code (thrown exceptions) is modelled with
    `Except String`, carrying the `Error.message` text.  Messages of
    engine-generated `TypeError`s are approximated by fixed strings; no
    theorem depends on their exact text.
-/
import Mathlib

/-- JavaScript runtime values, as manipulated by the server: the JSON
universe plus `undefined` (absent properties, dropped fields). -/
inductive JVal where
  | undefined
  | null
  | bool (b : Bool)
  | num (q : ℚ)
  | str (s : String)
  | arr (elems : List JVal)
  | obj (fields : List (String × JVal))

/-- JavaScript `typeof`. -/
def jsTypeof : JVal → String
  | .undefined => "undefined"
  | .null => "object"
  | .bool _ => "boolean"
  | .num _ => "number"
  | .str _ => "string"
  | .arr _ => "object"
  | .obj _ => "object"

/-- JavaScript truthiness (`if (v)`).  `NaN` cannot arise (numbers are
exact rationals here). -/
def jsTruthy : JVal → Bool
  | .undefined => false
  | .null => false
  | .bool b => b
  | .num q => q != 0
  | .str s => s != ""
  | .arr _ => true
  | .obj _ => true

/-- Strict equality of a value against a string literal
(`v === "lit"`), as used by the `switch`/`if` statements of the source.
Only ever true for a string value. -/
def strEqLit (v : JVal) (s : String) : Bool :=
  match v with
  | .str t => t == s
  | _ => false

/-- Strict equality against the number literal `0` (`b === 0`). -/
def numEqZero (v : JVal) : Bool :=
  match v with
  | .num q => q == 0
  | _ => false

/-- The canonical numeric index denoted by a property key, if any
(JavaScript array indexing: `a["1"]` is element 1, `a["01"]` is not). -/
def strIndex (k : String) : Option Nat :=
  match k.toNat? with
  | some i => if toString i = k then some i else none
  | none => none

/-- Integral rationals print like JavaScript numbers ("30", "-2").
JavaScript's shortest-roundtrip double formatting for non-integral
values is not modelled; no verified statement serializes one. -/
def numToString (q : ℚ) : String :=
  if q.den = 1 then toString q.num else toString q.num ++ "/" ++ toString q.den

/-- JavaScript `ToString`, as used by template literals
(`` `Tool ${tool} not found` ``) and property-key coercion. -/
def jsDisplay : JVal → String
  | .undefined => "undefined"
  | .null => "null"
  | .bool b => if b then "true" else "false"
  | .num q => numToString q
  | .str s => s
  | .arr _ => ""  -- `Array.prototype.toString`; never applied to arrays in any theorem
  | .obj _ => "[object Object]"

/-- Property read `v[k]` on a non-null, non-undefined base.  Own
properties only; inherited prototype methods are not modelled (none is
read by the program).  Array index/`length` reads follow JavaScript. -/
def jsGetField : JVal → String → JVal
  | .obj fs, k =>
    match fs.lookup k with
    | some v => v
    | none => .undefined
  | .arr es, k =>
    if k = "length" then .num (mkRat es.length 1)
    else
      match strIndex k with
      | some i => (es.getD i .undefined)
      | none => .undefined
  | .str s, k =>
    if k = "length" then .num (mkRat s.length 1)
    else
      match strIndex k with
      | some i =>
        match s.data.get? i with
        | some c => .str (String.mk [c])
        | none => .undefined
      | none => .undefined
  | _, _ => .undefined

/-- Property read `v[k]` with the JavaScript `TypeError` on a `null` or
`undefined` base. -/
def jsIndexE (v : JVal) (k : String) : Except String JVal :=
  match v with
  | .null => .error ("Cannot read properties of null (reading " ++ k ++ ")")
  | .undefined => .error ("Cannot read properties of undefined (reading " ++ k ++ ")")
  | v => .ok (jsGetField v k)

/-- Assign key `k` in an association list: update in place if present
(JavaScript keeps the original insertion position), append otherwise. -/
def setAssoc (fs : List (String × JVal)) (k : String) (x : JVal) : List (String × JVal) :=
  match fs with
  | [] => [(k, x)]
  | (k', v') :: rest => if k' = k then (k', x) :: rest else (k', v') :: setAssoc rest k x

/-- Property write `v[k] = x`.  On objects and in-range / one-past-end
array indices this follows JavaScript; writes to primitives are silent
no-ops (sloppy mode; no verified statement reaches such a write), and
array writes past the end (holes) or to non-index keys (invisible to
`JSON.stringify`) are not modelled. -/
def jsSetField (v : JVal) (k : String) (x : JVal) : JVal :=
  match v with
  | .obj fs => .obj (setAssoc fs k x)
  | .arr es =>
    match strIndex k with
    | some i =>
      if i < es.length then .arr (es.set i x)
      else if i = es.length then .arr (es ++ [x])
      else v
    | none => v
  | _ => v

/-- Property delete `delete v[k]`.  Object keys are unique on every
value the JSON parser can produce, so removing every occurrence agrees
with JavaScript.  Deleting an array index leaves a hole, which
serializes as `null` — modelled by storing `undefined`. -/
def jsDelField (v : JVal) (k : String) : JVal :=
  match v with
  | .obj fs => .obj (fs.filter (fun p => p.1 ≠ k))
  | .arr es =>
    match strIndex k with
    | some i => if i < es.length then .arr (es.set i .undefined) else v
    | none => v
  | _ => v

/-! ## JSON.stringify -/

/-- Escape one character inside a JSON string literal. -/
def escChar (c : Char) : String :=
  if c = '"' then "\\\""
  else if c = '\\' then "\\\\"
  else if c = '\n' then "\\n"
  else if c = '\r' then "\\r"
  else if c = '\t' then "\\t"
  else if c = '\x08' then "\\b"
  else if c = '\x0c' then "\\f"
  else if c.toNat < 0x20 then
    "\\u00" ++ String.mk [Nat.digitChar (c.toNat / 16), Nat.digitChar (c.toNat % 16)]
  else String.mk [c]

/-- Serialize a string as a JSON string literal. -/
def escString (s : String) : String :=
  "\"" ++ String.join (s.data.map escChar) ++ "\""

mutual

/-- `JSON.stringify`.  Returns `none` exactly where JavaScript returns
`undefined` (serializing `undefined` itself). -/
def stringifyV : JVal → Option String
  | .undefined => none
  | .null => some "null"
  | .bool b => some (if b then "true" else "false")
  | .num q => some (numToString q)
  | .str s => some (escString s)
  | .arr es => some ("[" ++ String.intercalate "," (stringifyElems es) ++ "]")
  | .obj fs => some ("\x7b" ++ String.intercalate "," (stringifyFields fs) ++ "\x7d")

/-- Array elements: `undefined` serializes as `null`. -/
def stringifyElems : List JVal → List String
  | [] => []
  | e :: rest => (stringifyV e).getD "null" :: stringifyElems rest

/-- Object members: fields whose value is `undefined` are dropped. -/
def stringifyFields : List (String × JVal) → List String
  | [] => []
  | (k, v) :: rest =>
    match stringifyV v with
    | some s => (escString k ++ ":" ++ s) :: stringifyFields rest
    | none => stringifyFields rest

end

/-! ## JSON.parse -/

/-- JSON insignificant whitespace (exactly space, tab, LF, CR). -/
def isJsonWS (c : Char) : Bool :=
  c = ' ' || c = '\t' || c = '\n' || c = '\r'

/-- Skip JSON whitespace. -/
def skipWS : List Char → List Char
  | [] => []
  | c :: cs => if isJsonWS c then skipWS cs else c :: cs

/-- Decimal digit? -/
def isDig (c : Char) : Bool := '0' ≤ c ∧ c ≤ '9'

/-- Longest digit prefix, as value and length. -/
def takeDigits : List Char → Nat → Nat → (Nat × Nat × List Char)
  | c :: cs, acc, n =>
    if isDig c then takeDigits cs (acc * 10 + (c.toNat - '0'.toNat)) (n + 1) else (acc, n, c :: cs)
  | [], acc, n => (acc, n, [])

/-- Parse the body of a JSON number after an optional leading minus.
JSON forbids leading zeros, requires digits after `.` and the
exponent. -/
def parseNumBody (neg : Bool) (s : List Char) : Except String (JVal × List Char) := do
  let (i, ilen, s) := takeDigits s 0 0
  if ilen = 0 then throw "Unexpected token in JSON: expected digit" else
  if ilen > 1 && i < 10 ^ (ilen - 1) then
    -- i has fewer significant digits than characters consumed ⇒ leading zero
    throw "Unexpected number in JSON"
  else
  let (frac, flen, s) ←
    match s with
    | '.' :: s' =>
      let (f, fl, s'') := takeDigits s' 0 0
      if fl = 0 then throw "Unexpected token in JSON: expected digit" else pure (f, fl, s'')
    | _ => pure (0, 0, s)
  let (esign, emag, s) ←
    match s with
    | 'e' :: s' | 'E' :: s' =>
      let (sgn, s₁) :=
        match s' with
        | '+' :: r => (true, r)
        | '-' :: r => (false, r)
        | r => (true, r)
      let (e, el, s₂) := takeDigits s₁ 0 0
      if el = 0 then throw "Unexpected token in JSON: expected digit" else pure (sgn, e, s₂)
    | _ => pure (true, 0, s)
  let mantissa : ℤ := (if neg then -1 else 1) * (i * 10 ^ flen + frac)
  -- value = mantissa / 10^flen * 10^(±emag), assembled as one exact rational
  let q : ℚ :=
    if esign then mkRat (mantissa * 10 ^ emag) (10 ^ flen)
    else mkRat mantissa (10 ^ flen * 10 ^ emag)
  pure (.num q, s)

/-- Parse a hexadecimal digit. -/
def hexVal (c : Char) : Option Nat :=
  if isDig c then some (c.toNat - '0'.toNat)
  else if 'a' ≤ c ∧ c ≤ 'f' then some (c.toNat - 'a'.toNat + 10)
  else if 'A' ≤ c ∧ c ≤ 'F' then some (c.toNat - 'A'.toNat + 10)
  else none

/-- Parse a JSON string literal body (after the opening quote), with
fuel (one unit per consumed character suffices).  Surrogate-pair
`\u` escapes are out of scope (no claim involves them). -/
def parseStr (fuel : Nat) (acc : List Char) (s : List Char) : Except String (String × List Char) :=
  match fuel with
  | 0 => throw "Unexpected end of JSON input"
  | fuel + 1 =>
    match s with
    | [] => throw "Unterminated string in JSON"
    | '"' :: rest => pure (String.mk acc.reverse, rest)
    | '\\' :: e :: rest =>
      if e = '"' then parseStr fuel ('"' :: acc) rest
      else if e = '\\' then parseStr fuel ('\\' :: acc) rest
      else if e = '/' then parseStr fuel ('/' :: acc) rest
      else if e = 'b' then parseStr fuel ('\x08' :: acc) rest
      else if e = 'f' then parseStr fuel ('\x0c' :: acc) rest
      else if e = 'n' then parseStr fuel ('\n' :: acc) rest
      else if e = 'r' then parseStr fuel ('\r' :: acc) rest
      else if e = 't' then parseStr fuel ('\t' :: acc) rest
      else if e = 'u' then
        match rest with
        | a :: b :: c :: d :: rest' =>
          match hexVal a, hexVal b, hexVal c, hexVal d with
          | some va, some vb, some vc, some vd =>
            let n := ((va * 16 + vb) * 16 + vc) * 16 + vd
            if h : n.isValidChar then parseStr fuel (Char.ofNatAux n h :: acc) rest'
            else throw "Lone surrogate in JSON escape"
          | _, _, _, _ => throw "Bad Unicode escape in JSON"
        | _ => throw "Bad Unicode escape in JSON"
      else throw "Bad escaped character in JSON"
    | '\\' :: [] => throw "Unterminated string in JSON"
    | c :: rest =>
      if c.toNat < 0x20 then throw "Bad control character in JSON string"
      else parseStr fuel (c :: acc) rest

/-- Does the input start with the given keyword? -/
def stripKeyword (kw : List Char) (s : List Char) : Option (List Char) :=
  match kw, s with
  | [], s => some s
  | k :: kws, c :: cs => if c = k then stripKeyword kws cs else none
  | _ :: _, [] => none

mutual

/-- Parse one JSON value; fuel bounds the recursion depth (the input
length plus one always suffices, since each descent consumes at least
one character). -/
def parseV (fuel : Nat) (s : List Char) : Except String (JVal × List Char) :=
  match fuel with
  | 0 => throw "Unexpected end of JSON input"
  | fuel + 1 =>
    match skipWS s with
    | [] => throw "Unexpected end of JSON input"
    | c :: cs =>
      if c = 'n' then
        match stripKeyword ['u', 'l', 'l'] cs with
        | some rest => pure (.null, rest)
        | none => throw "Unexpected token n in JSON"
      else if c = 't' then
        match stripKeyword ['r', 'u', 'e'] cs with
        | some rest => pure (.bool true, rest)
        | none => throw "Unexpected token t in JSON"
      else if c = 'f' then
        match stripKeyword ['a', 'l', 's', 'e'] cs with
        | some rest => pure (.bool false, rest)
        | none => throw "Unexpected token f in JSON"
      else if c = '"' then do
        let (str, rest) ← parseStr (cs.length + 1) [] cs
        pure (.str str, rest)
      else if c = '-' then parseNumBody true cs
      else if isDig c then parseNumBody false (c :: cs)
      else if c = '[' then
        match skipWS cs with
        | ']' :: rest => pure (.arr [], rest)
        | s' => parseElems fuel [] s'
      else if c = '{' then
        match skipWS cs with
        | '}' :: rest => pure (.obj [], rest)
        | s' => parseMembers fuel [] s'
      else throw ("Unexpected token " ++ String.mk [c] ++ " in JSON")

/-- Parse the elements of a non-empty array (accumulator reversed). -/
def parseElems (fuel : Nat) (acc : List JVal) (s : List Char) : Except String (JVal × List Char) :=
  match fuel with
  | 0 => throw "Unexpected end of JSON input"
  | fuel + 1 => do
    let (v, rest) ← parseV fuel s
    match skipWS rest with
    | ',' :: rest' => parseElems fuel (v :: acc) rest'
    | ']' :: rest' => pure (.arr (v :: acc).reverse, rest')
    | _ => throw "Expected , or ] after array element in JSON"

/-- Parse the members of a non-empty object (accumulator in order; a
repeated key overwrites in place, as `JSON.parse` does). -/
def parseMembers (fuel : Nat) (acc : List (String × JVal)) (s : List Char) :
    Except String (JVal × List Char) :=
  match fuel with
  | 0 => throw "Unexpected end of JSON input"
  | fuel + 1 =>
    match skipWS s with
    | '"' :: cs => do
      let (key, rest) ← parseStr (cs.length + 1) [] cs
      match skipWS rest with
      | ':' :: rest' => do
        let (v, rest'') ← parseV fuel rest'
        let acc' := setAssoc acc key v
        match skipWS rest'' with
        | ',' :: rest''' => parseMembers fuel acc' rest'''
        | '}' :: rest''' => pure (.obj acc', rest''')
        | _ => throw "Expected , or \x7d after property value in JSON"
      | _ => throw "Expected : after property name in JSON"
    | _ => throw "Expected property name in JSON"

end

/-- `JSON.parse` on a whole text: one value surrounded by whitespace. -/
def parseJSON (s : List Char) : Except String JVal := do
  let (v, rest) ← parseV (s.length + 1) s
  match skipWS rest with
  | [] => pure v
  | _ => throw "Unexpected non-whitespace character after JSON"

/-! ## Tool handlers

Handlers take the request's `params` value and either produce a result
value or fail with an error message (a thrown `Error`'s `.message`).
The file-system and system-information tools (`listDir`, `searchFiles`,
`fileContent`, `systemInfo`) perform I/O; they enter the development
only as opaque handler parameters of the registry. -/

/-- A tool's `execute` function, from the framing layer's view. -/
abbrev Handler := JVal → Except String JVal

/-- The tool registry: `Map` from name to tool, queried with
`tools.get`.  Names are unique, so first-match lookup agrees with
`Map` semantics. -/
abbrev Registry := List (String × Handler)

/-- The error response envelope `{error: <message>}`. -/
def errObj (m : String) : JVal := .obj [("error", .str m)]

/-- The `echo` tool: `async (params) => ({ message: params.message })`. -/
def echoExecute : Handler := fun params => do
  let msg ← jsIndexE params "message"
  pure (.obj [("message", msg)])

/-- JavaScript `+` restricted to numbers.  The coercions `+` performs on
non-number operands (string concatenation, NaN) are outside the JSON
number domain quantified over by every claim and are not modelled. -/
def jsAdd : JVal → JVal → JVal
  | .num x, .num y => .num (x + y)
  | _, _ => .undefined

/-- JavaScript `-` restricted to numbers (see `jsAdd`). -/
def jsSub : JVal → JVal → JVal
  | .num x, .num y => .num (x - y)
  | _, _ => .undefined

/-- JavaScript `*` restricted to numbers (see `jsAdd`). -/
def jsMul : JVal → JVal → JVal
  | .num x, .num y => .num (x * y)
  | _, _ => .undefined

/-- JavaScript `/` restricted to numbers with nonzero divisor (the
source checks `b === 0` before dividing; see `jsAdd`). -/
def jsDiv : JVal → JVal → JVal
  | .num x, .num y => .num (x / y)
  | _, _ => .undefined

/-- The `calculate` tool: destructures `{operation, a, b}` and switches
on `operation` with strict string comparison. -/
def calculateExecute : Handler := fun params => do
  let operation ← jsIndexE params "operation"
  let a ← jsIndexE params "a"
  let b ← jsIndexE params "b"
  if strEqLit operation "add" then pure (.obj [("result", jsAdd a b)])
  else if strEqLit operation "subtract" then pure (.obj [("result", jsSub a b)])
  else if strEqLit operation "multiply" then pure (.obj [("result", jsMul a b)])
  else if strEqLit operation "divide" then
    if numEqZero b then throw "Division by zero"
    else pure (.obj [("result", jsDiv a b)])
  else throw "Invalid operation"

/-! ### jsonProcess: validate -/

mutual

/-- `validateField(value, schemaField)` of the `jsonProcess` tool.  A
string schema leaf compares runtime types; an object schema node first
requires `value` to be a truthy object and then checks every declared
key recursively; `null` (which passes the `typeof === "object" &&
!Array.isArray` test) reaches `Object.entries(null)`, which throws;
everything else validates. -/
def validateField (value schemaField : JVal) : Except String Bool :=
  match schemaField with
  | .str s => pure (jsTypeof value == s)
  | .obj fields =>
    if !(jsTruthy value) || jsTypeof value != "object" then pure false
    else validateFields value fields
  | .null =>
    if !(jsTruthy value) || jsTypeof value != "object" then pure false
    else throw "Cannot convert undefined or null to object"
  | _ => pure true

/-- `Object.entries(schemaField).every(([key, type]) =>
validateField(value[key], type))`: left-to-right with short-circuit on
the first `false`. -/
def validateFields (value : JVal) : List (String × JVal) → Except String Bool
  | [] => pure true
  | (key, ty) :: rest => do
    let b ← validateField (jsGetField value key) ty
    if b then validateFields value rest else pure false

end

/-! ### jsonProcess: transform (pure model)

`JSON.parse` yields an alias-free tree, and the transform loop never
duplicates a reference (a `rename` moves one; an `add` installs the
sole reference to a transformation's `value`), so the deep clone stays
a tree throughout and in-place mutation coincides with the functional
path update below.  The heap model further down re-verifies the
mutation/aliasing reading of the same code for claim C7. -/

/-- Split on a separator character, as JavaScript `String.split` with a
one-character separator. -/
def splitCh (sep : Char) : List Char → List (List Char)
  | [] => [[]]
  | c :: cs =>
    match splitCh sep cs with
    | [] => [[c]]
    | l :: ls => if c = sep then [] :: l :: ls else (c :: l) :: ls

/-- `t.path.split(".")`. -/
def splitDot (s : String) : List String := (splitCh '.' s.data).map String.mk

/-- Apply one transformation's mutation to the navigated parent
container, `lastPart` being the final path segment.  `switch
(t.operation)` has no default case, so an unknown operation mutates
nothing. -/
def applyMut (t parent : JVal) (lastPart : String) : JVal :=
  let op := jsGetField t "operation"
  if strEqLit op "rename" then
    let np := jsGetField t "newPath"
    if jsTruthy np then
      -- current[t.newPath] = current[lastPart]; delete current[lastPart]
      jsDelField (jsSetField parent (jsDisplay np) (jsGetField parent lastPart)) lastPart
    else parent
  else if strEqLit op "delete" then jsDelField parent lastPart
  else if strEqLit op "add" then jsSetField parent lastPart (jsGetField t "value")
  else parent

/-- The navigation loop of the transform branch: follow all but the
last path segment by successive lookups, breaking out (and skipping the
mutation) as soon as an intermediate value is falsy, then apply `f` to
the parent if it is truthy.  Returns `none` when the mutation was
skipped, otherwise the updated subtree (functional image of the
in-place update). -/
def navMut (cur : JVal) (parts : List String) (f : JVal → String → JVal) :
    Except String (Option JVal) :=
  match parts with
  | [] => pure none  -- unreachable: `split` never returns an empty array
  | [last] => pure (if jsTruthy cur then some (f cur last) else none)
  | p :: rest => do
    let child ← jsIndexE cur p
    if jsTruthy child then
      match ← navMut child rest f with
      | none => pure none
      | some child' => pure (some (jsSetField cur p child'))
    else pure none

/-- One iteration of `for (const t of transformations)`. -/
def transformStep (root t : JVal) : Except String JVal := do
  let pathv ← jsIndexE t "path"
  match pathv with
  | .str s =>
    match ← navMut root (splitDot s) (applyMut t) with
    | some r => pure r
    | none => pure root
  | .null => throw "Cannot read properties of null (reading split)"
  | .undefined => throw "t.path.split is not a function"
  | _ => throw "t.path.split is not a function"

/-- The whole transformation loop, in array order; each step sees the
effects of the previous ones. -/
def transformList (root : JVal) (ts : List JVal) : Except String JVal :=
  ts.foldlM transformStep root

mutual

/-- `JSON.parse(JSON.stringify ·)` on trees: object fields with
`undefined` values disappear, `undefined` array elements become
`null`. -/
def pruneUndef : JVal → JVal
  | .arr es => .arr (pruneElems es)
  | .obj fs => .obj (pruneFields fs)
  | v => v

def pruneElems : List JVal → List JVal
  | [] => []
  | .undefined :: rest => .null :: pruneElems rest
  | e :: rest => pruneUndef e :: pruneElems rest

def pruneFields : List (String × JVal) → List (String × JVal)
  | [] => []
  | (_, .undefined) :: rest => pruneFields rest
  | (k, v) :: rest => (k, pruneUndef v) :: pruneFields rest

end

/-- `JSON.parse(JSON.stringify(data))` — the deep clone.
`JSON.stringify(undefined)` is `undefined`, so `JSON.parse` then throws
a `SyntaxError` on the string `"undefined"`. -/
def deepCloneTree : JVal → Except String JVal
  | .undefined => throw "Unexpected token u in JSON at position 0"
  | v => pure (pruneUndef v)

/-- The `jsonProcess` tool: destructures
`{operation, data, schema, transformations}` and runs the requested
branch; with neither branch enabled it throws.  A truthy non-array
`transformations` makes `for (const t of transformations)` (or the
`t.path.split` inside) throw a `TypeError`; the uniform message below
stands for those engine texts. -/
def jsonProcessExecute : Handler := fun params => do
  let operation ← jsIndexE params "operation"
  let data ← jsIndexE params "data"
  let schema ← jsIndexE params "schema"
  let transformations ← jsIndexE params "transformations"
  if strEqLit operation "validate" && jsTruthy schema then do
    let isValid ← validateField data schema
    pure (.obj [("isValid", .bool isValid)])
  else if strEqLit operation "transform" && jsTruthy transformations then
    match transformations with
    | .arr ts => do
      let root ← deepCloneTree data
      let res ← transformList root ts
      pure (.obj [("result", res)])
    | _ => throw "transformations is not iterable"
  else throw "Invalid operation or missing required parameters"

/-! ## The dispatcher: MCPServer.handleMessage -/

/-- `this.tools.get(tool)`: only a string key can hit the registry
(`Map` uses SameValueZero on the string keys set at construction). -/
def lookupTool (reg : Registry) (tool : JVal) : Option Handler :=
  match tool with
  | .str name => reg.lookup name
  | _ => none

/-- The body of `handleMessage` up to its `catch`: destructure
`{tool, params}` (throws on a `null` message), look the tool up
(`throw new Error(`Tool ${tool} not found`)` on a miss) and run it. -/
def handleMessageAux (reg : Registry) (message : JVal) : Except String JVal := do
  let tool ← jsIndexE message "tool"
  let params ← jsIndexE message "params"
  match lookupTool reg tool with
  | some ex => ex params
  | none => throw ("Tool " ++ jsDisplay tool ++ " not found")

/-- `MCPServer.handleMessage`: always resolves, returning either the
handler's success value or the `{error}` envelope built in the
`catch`.  All throws in the program are `Error` objects, so the
`instanceof Error` test always takes the `.message` branch. -/
def handleMessage (reg : Registry) (message : JVal) : JVal :=
  match handleMessageAux reg message with
  | .ok v => v
  | .error m => errObj m

/-- The registry built in the `MCPServer` constructor, with the four
I/O-performing handlers left abstract. -/
def mkRegistry (listDirEx searchFilesEx fileContentEx systemInfoEx : Handler) : Registry :=
  [("echo", echoExecute),
   ("listDir", listDirEx),
   ("searchFiles", searchFilesEx),
   ("calculate", calculateExecute),
   ("fileContent", fileContentEx),
   ("systemInfo", systemInfoEx),
   ("jsonProcess", jsonProcessExecute)]

/-- An arbitrary concrete instantiation of the four I/O-performing
handlers, used only to state closed examples in which they are never
dispatched. -/
def ioHandler : Handler := fun _ => pure .null

/-- A concrete registry for closed statements. -/
def registry₀ : Registry := mkRegistry ioHandler ioHandler ioHandler ioHandler

/-- The params object of a `calculate` request. -/
def calcParams (op : String) (a b : JVal) : JVal :=
  .obj [("operation", .str op), ("a", a), ("b", b)]

/-- The canonical request envelope `{tool, params}`. -/
def mkReq (t : String) (p : JVal) : JVal :=
  .obj [("tool", .str t), ("params", p)]


/-! ## The connection framer: socket.on("data") -/

/-- The whitespace removed by `String.prototype.trim` (ECMAScript
WhiteSpace and LineTerminator code points). -/
def isTrimWS (c : Char) : Bool :=
  c = ' ' || c = '\t' || c = '\n' || c = '\r' || c = '\x0b' || c = '\x0c' ||
  c = '\u00a0' || c = '\u1680' ||
  ('\u2000' ≤ c && c ≤ '\u200a') ||
  c = '\u2028' || c = '\u2029' || c = '\u202f' || c = '\u205f' ||
  c = '\u3000' || c = '\ufeff'

/-- `!msg.trim()`: the line is empty or whitespace-only. -/
def isBlank (l : List Char) : Bool := l.all isTrimWS

/-- `JSON.stringify(response)` coerced onto the socket:
`undefined + "\n"` would write the text `undefined`. -/
def stringifyTop (v : JVal) : String := (stringifyV v).getD "undefined"

/-- The response line written for one processed (non-blank) message:
parse it, dispatch, serialize — or the `Invalid message format`
envelope when `JSON.parse` throws. -/
def respondLine (reg : Registry) (l : List Char) : List Char :=
  match parseJSON l with
  | .ok req => (stringifyTop (handleMessage reg req)).data ++ ['\n']
  | .error _ => (stringifyTop (errObj "Invalid message format")).data ++ ['\n']

/-- Per-message processing inside the chunk loop: blank lines are
skipped (`continue`), every other line gets exactly one response. -/
def processLine (reg : Registry) (l : List Char) : List (List Char) :=
  if isBlank l then [] else [respondLine reg l]

/-- Append the lists produced for each element. -/
def catMap (f : α → List β) : List α → List β
  | [] => []
  | x :: xs => f x ++ catMap f xs

/-- Last element of a list, with a default. -/
def lastD (d : α) : List α → α
  | [] => d
  | [x] => x
  | _ :: x :: xs => lastD d (x :: xs)

/-- `buffer.includes(sep)`. -/
def hasCh (sep : Char) : List Char → Bool
  | [] => false
  | c :: cs => c = sep || hasCh sep cs

/-- The body of the `data` handler, as a function of the accumulated
buffer (`buf + chunk`): if the buffer contains a newline, split it,
keep the final (unterminated) piece as the new buffer, and process
every earlier piece in order.  Returns the new buffer and the response
lines written. -/
def processBuffer (reg : Registry) (buffer : List Char) : List Char × List (List Char) :=
  if hasCh '\n' buffer then
    let messages := splitCh '\n' buffer
    (lastD [] messages, catMap (processLine reg) messages.dropLast)
  else (buffer, [])

/-- One `data` event: `buffer += data.toString()`, then process. -/
def processChunk (reg : Registry) (buf chunk : List Char) : List Char × List (List Char) :=
  processBuffer reg (buf ++ chunk)

/-- A sequence of `data` events on one connection. -/
def processChunks (reg : Registry) (buf : List Char) : List (List Char) → List Char × List (List Char)
  | [] => (buf, [])
  | c :: cs =>
    let r := processChunk reg buf c
    let r' := processChunks reg r.1 cs
    (r'.1, r.2 ++ r'.2)

/-- Concatenation of all chunks: the connection's whole input text. -/
def flat : List (List Char) → List Char
  | [] => []
  | l :: ls => l ++ flat ls

/-! ## Async scheduling of the data listener (claim C1)

The `data` listener is an `async` function and Node does not await
its listeners: each `data` event starts a new invocation, and an
invocation that reaches `await this.handleMessage(request)` for an
I/O-performing tool suspends there, letting already-queued `data`
events run before it resumes.  The sequential `processChunks` above is
therefore exact only when every dispatched handler settles during the
invocation's own microtask drain.  This section models the listener's
suspension points: an invocation runs synchronously through
`buffer += data` / split / pop, then iterates its messages, writing
each response during its own task when the dispatched `await` settles
in the microtask queue, and suspending (with the write still owed)
when it awaits a libuv file-system operation.  The schedule modeled is
the admissible one in which every pending I/O completion is delivered
after the already-queued `data` events and earlier completions — I/O
slower than the gaps between chunks. -/

/-- How one dispatched `await toolImpl.execute(params)` settles, as
the event loop sees it: `now` — the promise settles during the current
task's microtask drain (an `async` function that never leaves
JavaScript: `echo`, `calculate`, `systemInfo`, `jsonProcess`, and the
thrown unknown-tool or destructuring error); `later` — the function
awaits a libuv file-system operation (`listDir`, `searchFiles`,
`fileContent`), so the invocation suspends and resumes only in a later
macrotask, when the operation completes with this result. -/
inductive AsyncRes where
  | now (r : Except String JVal)
  | later (r : Except String JVal)

/-- A tool's `execute` together with its suspension behaviour. -/
abbrev AHandler := JVal → AsyncRes

/-- The registry with each tool's suspension behaviour. -/
abbrev ARegistry := List (String × AHandler)

/-- The value an `await` eventually settles to. -/
def settle : AsyncRes → Except String JVal
  | .now r => r
  | .later r => r

/-- Forget the suspension behaviour: the registry the sequential model
sees. -/
def toPure (reg : ARegistry) : Registry :=
  reg.map (fun p => (p.1, fun v => settle (p.2 v)))

/-- Mark every handler of a pure registry as settling in the microtask
drain. -/
def toAsync (reg : Registry) : ARegistry :=
  reg.map (fun p => (p.1, fun v => AsyncRes.now (p.2 v)))

/-- `this.tools.get(tool)` against the async registry. -/
def lookupToolA (reg : ARegistry) (tool : JVal) : Option AHandler :=
  match tool with
  | .str name => reg.lookup name
  | _ => none

/-- `handleMessage` with the suspension behaviour of the dispatched
handler: destructuring, `Map.get`, the unknown-tool throw and the
`catch` conversion are all synchronous, so every outcome except a
dispatched I/O tool settles within the microtask drain. -/
def handleMessageA (reg : ARegistry) (message : JVal) : AsyncRes :=
  match jsIndexE message "tool" with
  | .error e => .now (.error e)
  | .ok tool =>
    match jsIndexE message "params" with
    | .error e => .now (.error e)
    | .ok params =>
      match lookupToolA reg tool with
      | some ex => ex params
      | none => .now (.error ("Tool " ++ jsDisplay tool ++ " not found"))

/-- The response line written for a settled dispatch (the `catch`
conversion and `JSON.stringify(response) + "\n"` are synchronous). -/
def envLine (r : Except String JVal) : List Char :=
  (stringifyTop (match r with | .ok v => v | .error m => errObj m)).data ++ ['\n']

/-- One iteration of the message loop, with its suspension behaviour:
`skip` for a blank line (`continue`), `sync` when the response is
written during the invocation's own task (parse failures and `now`
dispatches), `susp` when the dispatched handler suspends on I/O, the
write still owed. -/
inductive LineRes where
  | skip
  | sync (w : List Char)
  | susp (w : List Char)

/-- The loop body for one line, with suspension behaviour. -/
def respondLineA (reg : ARegistry) (l : List Char) : LineRes :=
  if isBlank l then .skip
  else
    match parseJSON l with
    | .error _ => .sync (envLine (.error "Invalid message format"))
    | .ok req =>
      match handleMessageA reg req with
      | .now r => .sync (envLine r)
      | .later r => .susp (envLine r)

/-- A suspended invocation: the response line its pending `await` still
owes, and the lines its loop has not yet reached. -/
abbrev Pending := List Char × List (List Char)

/-- Run one listener invocation until its loop finishes or suspends at
an I/O `await`: the responses written during the invocation's task and
microtask drain, and the suspension, if any. -/
def runEvent (reg : ARegistry) : List (List Char) → List (List Char) × Option Pending
  | [] => ([], none)
  | l :: ls =>
    match respondLineA reg l with
    | .skip => runEvent reg ls
    | .sync w => (w :: (runEvent reg ls).1, (runEvent reg ls).2)
    | .susp w => ([], some (w, ls))

/-- The synchronous prologue of a `data` event: append the chunk and,
when the buffer now holds a newline, split out the completed lines,
`messages.pop() || ""` keeping the tail as the new buffer.  This runs
before the loop's first `await`, so it is never interleaved. -/
def frameChunk (buf chunk : List Char) : List Char × List (List Char) :=
  if hasCh '\n' (buf ++ chunk) then
    (lastD [] (splitCh '\n' (buf ++ chunk)), (splitCh '\n' (buf ++ chunk)).dropLast)
  else (buf ++ chunk, [])

/-- All queued `data` events, in arrival order, each run to completion
or to its first I/O suspension: the final buffer, the responses
written during the events' own tasks, and the suspended invocations in
suspension order. -/
def asyncEvents (reg : ARegistry) (buf : List Char) :
    List (List Char) → List Char × List (List Char) × List Pending
  | [] => (buf, [], [])
  | c :: cs =>
    ((asyncEvents reg (frameChunk buf c).1 cs).1,
     (runEvent reg (frameChunk buf c).2).1 ++ (asyncEvents reg (frameChunk buf c).1 cs).2.1,
     (match (runEvent reg (frameChunk buf c).2).2 with
      | some s => [s]
      | none => []) ++ (asyncEvents reg (frameChunk buf c).1 cs).2.2)

/-- Fuel bounding the number of I/O completions a queue can cause. -/
def qFuel (q : List Pending) : Nat :=
  (q.map (fun s => s.2.length + 1)).sum

/-- Deliver the pending I/O completions in order: each resumption
writes the owed response and runs the loop on, re-suspending at its
next I/O `await`, whose completion is delivered after the others
pending. -/
def drainQ (reg : ARegistry) : Nat → List Pending → List (List Char)
  | 0, _ => []
  | _ + 1, [] => []
  | fuel + 1, (w, ls) :: q =>
    match runEvent reg ls with
    | (ws, none) => w :: ws ++ drainQ reg fuel q
    | (ws, some s) => w :: ws ++ drainQ reg fuel (q ++ [s])

/-- Everything the connection writes for a chunk sequence under this
schedule: the events' own writes, then the drained completions. -/
def asyncWrites (reg : ARegistry) (chunks : List (List Char)) : List (List Char) :=
  (asyncEvents reg [] chunks).2.1 ++
    drainQ reg (qFuel (asyncEvents reg [] chunks).2.2) (asyncEvents reg [] chunks).2.2

/-- The constructor's registry with each tool's real suspension
behaviour: `echo`, `calculate` and `jsonProcess` never leave
JavaScript and `systemInfo` calls only synchronous `os` functions, so
their `async` wrappers settle in the microtask drain; `listDir`,
`searchFiles` and `fileContent` await `fs` promises — genuine libuv
I/O.  The four opaque handlers' settled results stay abstract. -/
def mkARegistry (listDirEx searchFilesEx fileContentEx systemInfoEx : Handler) : ARegistry :=
  [("echo", fun p => .now (echoExecute p)),
   ("listDir", fun p => .later (listDirEx p)),
   ("searchFiles", fun p => .later (searchFilesEx p)),
   ("calculate", fun p => .now (calculateExecute p)),
   ("fileContent", fun p => .later (fileContentEx p)),
   ("systemInfo", fun p => .now (systemInfoEx p)),
   ("jsonProcess", fun p => .now (jsonProcessExecute p))]

/-- A concrete `fileContent` read result for the counterexample. -/
def fileRead₀ : Handler := fun _ => pure (.obj [("content", .str "file data")])

/-- The counterexample's registry: the real suspension behaviour, with
the `fileContent` read resolving to `fileRead₀`'s value. -/
def aRegistry₀ : ARegistry := mkARegistry ioHandler ioHandler fileRead₀ ioHandler

/-- Chunk 1 of the counterexample: a complete `fileContent` read
request line. -/
def fcLine : List Char :=
  "\x7b\"tool\":\"fileContent\",\"params\":\x7b\"operation\":\"read\",\"path\":\"f\"\x7d\x7d\n".data

/-- Chunk 2 of the counterexample: a complete `echo` request line. -/
def echoLine : List Char :=
  "\x7b\"tool\":\"echo\",\"params\":\x7b\"message\":\"hi\"\x7d\x7d\n".data

/-! ## Heap model of the transform branch (claim C7)

The pure model above is adequate for the functional behaviour because
`JSON.parse` yields an alias-free tree.  Claim C7 is about mutation and
reference identity — `JSON.parse(JSON.stringify(data))` builds a fresh
object graph and the loop mutates only that copy — so the transform
branch is modelled a second time over an addressed store: object and
array nodes live in a heap, the deep clone materializes fresh nodes,
and the transformations mutate nodes in place.  A transformation's
`value` is materialized at `add` time; in JavaScript the assigned
reference points into the parsed request, whose subtrees are alias-free
and disjoint from `data`, so the two readings agree on everything the
theorems observe. -/

/-- A runtime value in the heap model: primitives are immediate,
objects and arrays are references into the store. -/
inductive HVal where
  | undefined
  | null
  | bool (b : Bool)
  | num (q : ℚ)
  | str (s : String)
  | ref (a : Nat)
  deriving DecidableEq

/-- A heap node: an object's fields or an array's elements. -/
inductive HNode where
  | hobj (fields : List (String × HVal))
  | harr (elems : List HVal)

/-- The store: nodes by address, and the next fresh address. -/
structure Heap where
  mem : Nat → Option HNode
  next : Nat

/-- No node lives at or above `next`. -/
def Heap.bounded (h : Heap) : Prop := ∀ a, h.next ≤ a → h.mem a = none

/-- Point update of the store. -/
def setMem (m : Nat → Option HNode) (a : Nat) (n : HNode) : Nat → Option HNode :=
  fun b => if b = a then some n else m b

/-- Overwrite the node at an existing address. -/
def Heap.write (h : Heap) (a : Nat) (n : HNode) : Heap :=
  ⟨setMem h.mem a n, h.next⟩

/-- Allocate a fresh node. -/
def Heap.alloc (h : Heap) (n : HNode) : HVal × Heap :=
  (.ref h.next, ⟨setMem h.mem h.next n, h.next + 1⟩)

mutual

/-- Build the object graph of a tree in the heap — what `JSON.parse`
does.  Children are allocated before their parent, so every reference
points to a lower (and fresh) address. -/
def materialize : JVal → Heap → HVal × Heap
  | .undefined, h => (.undefined, h)
  | .null, h => (.null, h)
  | .bool b, h => (.bool b, h)
  | .num q, h => (.num q, h)
  | .str s, h => (.str s, h)
  | .arr es, h =>
    let r := materializeElems es h
    r.2.alloc (.harr r.1)
  | .obj fs, h =>
    let r := materializeFields fs h
    r.2.alloc (.hobj r.1)

def materializeElems : List JVal → Heap → List HVal × Heap
  | [], h => ([], h)
  | e :: rest, h =>
    let r1 := materialize e h
    let r2 := materializeElems rest r1.2
    (r1.1 :: r2.1, r2.2)

def materializeFields : List (String × JVal) → Heap → List (String × HVal) × Heap
  | [], h => ([], h)
  | p :: rest, h =>
    let r1 := materialize p.2 h
    let r2 := materializeFields rest r1.2
    ((p.1, r1.1) :: r2.1, r2.2)

end

/-- Truthiness (references are objects, hence truthy). -/
def hTruthy : HVal → Bool
  | .undefined => false
  | .null => false
  | .bool b => b
  | .num q => q != 0
  | .str s => s != ""
  | .ref _ => true

/-- Generic association-list assignment (JavaScript property write:
update in place or append). -/
def setAssocH (fs : List (String × HVal)) (k : String) (x : HVal) : List (String × HVal) :=
  match fs with
  | [] => [(k, x)]
  | (k', v') :: rest => if k' = k then (k', x) :: rest else (k', v') :: setAssocH rest k x

/-- Field read on a node (mirrors `jsGetField` on objects/arrays). -/
def HNode.get (n : HNode) (k : String) : HVal :=
  match n with
  | .hobj fs =>
    match fs.lookup k with
    | some v => v
    | none => .undefined
  | .harr es =>
    if k = "length" then .num (mkRat es.length 1)
    else
      match strIndex k with
      | some i => es.getD i .undefined
      | none => .undefined

/-- Field write on a node (mirrors `jsSetField`). -/
def HNode.set (n : HNode) (k : String) (x : HVal) : HNode :=
  match n with
  | .hobj fs => .hobj (setAssocH fs k x)
  | .harr es =>
    match strIndex k with
    | some i =>
      if i < es.length then .harr (es.set i x)
      else if i = es.length then .harr (es ++ [x])
      else n
    | none => n

/-- Field delete on a node (mirrors `jsDelField`). -/
def HNode.del (n : HNode) (k : String) : HNode :=
  match n with
  | .hobj fs => .hobj (fs.filter (fun p => p.1 ≠ k))
  | .harr es =>
    match strIndex k with
    | some i => if i < es.length then .harr (es.set i .undefined) else n
    | none => n

/-- String property reads yield only primitives. -/
def strGetH (s : String) (k : String) : HVal :=
  if k = "length" then .num (mkRat s.length 1)
  else
    match strIndex k with
    | some i =>
      match s.data.get? i with
      | some c => .str (String.mk [c])
      | none => .undefined
    | none => .undefined

/-- Property read `v[k]` in the heap, with the `TypeError` on a `null`
or `undefined` base. -/
def hIndexE (h : Heap) (v : HVal) (k : String) : Except String HVal :=
  match v with
  | .null => .error ("Cannot read properties of null (reading " ++ k ++ ")")
  | .undefined => .error ("Cannot read properties of undefined (reading " ++ k ++ ")")
  | .ref a =>
    match h.mem a with
    | some n => .ok (n.get k)
    | none => .ok .undefined
  | .str s => .ok (strGetH s k)
  | _ => .ok .undefined

/-- `current[k] = x` at a reference. -/
def writeField (h : Heap) (a : Nat) (k : String) (x : HVal) : Heap :=
  match h.mem a with
  | some n => h.write a (n.set k x)
  | none => h

/-- `delete current[k]` at a reference. -/
def delField (h : Heap) (a : Nat) (k : String) : Heap :=
  match h.mem a with
  | some n => h.write a (n.del k)
  | none => h

/-- The navigation loop over all but the last path segment: returns the
parent value and the last segment, or `none` when a falsy value broke
the loop (or the final parent is falsy). -/
def navParentH (h : Heap) : HVal → List String → Except String (Option (HVal × String))
  | _, [] => .ok none
  | cur, [last] => .ok (if hTruthy cur then some (cur, last) else none)
  | cur, p :: q :: rest =>
    match hIndexE h cur p with
    | .error e => .error e
    | .ok child => if hTruthy child then navParentH h child (q :: rest) else .ok none

/-- One `for (const t of transformations)` iteration on the heap.
Mutations act only on a reference parent (a truthy primitive parent is
a sloppy-mode no-op, as in the pure model). -/
def transformStepH (h : Heap) (root : HVal) (t : JVal) : Except String Heap :=
  match jsIndexE t "path" with
  | .error e => .error e
  | .ok (.str s) =>
    match navParentH h root (splitDot s) with
    | .error e => .error e
    | .ok none => .ok h
    | .ok (some pr) =>
      if strEqLit (jsGetField t "operation") "rename" then
        if jsTruthy (jsGetField t "newPath") then
          match pr.1 with
          | .ref a =>
            -- current[t.newPath] = current[lastPart]; delete current[lastPart]
            match hIndexE h (HVal.ref a) pr.2 with
            | .error e => .error e
            | .ok v =>
              .ok (delField (writeField h a (jsDisplay (jsGetField t "newPath")) v) a pr.2)
          | _ => .ok h
        else .ok h
      else if strEqLit (jsGetField t "operation") "delete" then
        match pr.1 with
        | .ref a => .ok (delField h a pr.2)
        | _ => .ok h
      else if strEqLit (jsGetField t "operation") "add" then
        match pr.1 with
        | .ref a =>
          .ok (writeField (materialize (jsGetField t "value") h).2 a pr.2
            (materialize (jsGetField t "value") h).1)
        | _ => .ok h
      else .ok h
  | .ok .null => .error "Cannot read properties of null (reading split)"
  | .ok .undefined => .error "t.path.split is not a function"
  | .ok _ => .error "t.path.split is not a function"

/-- The transformation loop; a throw aborts it, keeping the heap
mutations made so far. -/
def transformRunH (root : HVal) : Heap → List JVal → Heap × Option String
  | h, [] => (h, none)
  | h, t :: ts =>
    match transformStepH h root t with
    | .ok h' => transformRunH root h' ts
    | .error e => (h, some e)

/-- The whole transform branch on the heap: deep-clone `data` (the
parse of the stringify materializes a completely fresh graph), then run
the transformations on the clone.  Returns the result root, the final
heap, and the error, if any. -/
def transformBranchH (h₀ : Heap) (dataJ : JVal) (ts : List JVal) :
    HVal × Heap × Option String :=
  match deepCloneTree dataJ with
  | .error e => (.undefined, h₀, some e)
  | .ok dj =>
    let r := materialize dj h₀
    let r2 := transformRunH r.1 r.2 ts
    (r.1, r2.1, r2.2)

/-- Read a heap value back into a tree; the fuel bounds the depth and
is used only at concrete inputs. -/
def readbackH (h : Heap) : Nat → HVal → Option JVal
  | 0, _ => none
  | fuel + 1, v =>
    match v with
    | .undefined => some .undefined
    | .null => some .null
    | .bool b => some (.bool b)
    | .num q => some (.num q)
    | .str s => some (.str s)
    | .ref a =>
      match h.mem a with
      | some (.hobj fs) =>
        (fs.mapM (fun p => (readbackH h fuel p.2).map (fun w => (p.1, w)))).map .obj
      | some (.harr es) => (es.mapM (readbackH h fuel)).map .arr
      | none => none

/-- All references of a value lie at or above `n₀`. -/
def refGE (n₀ : Nat) : HVal → Prop
  | .ref a => n₀ ≤ a
  | _ => True

/-- All references stored in a node lie at or above `n₀`. -/
def nodeGE (n₀ : Nat) : HNode → Prop
  | .hobj fs => ∀ p ∈ fs, refGE n₀ p.2
  | .harr es => ∀ v ∈ es, refGE n₀ v

/-- Every node at or above `n₀` references only addresses at or above
`n₀`: the clone region is closed under navigation. -/
def regionOK (h : Heap) (n₀ : Nat) : Prop :=
  ∀ a n, n₀ ≤ a → h.mem a = some n → nodeGE n₀ n

/-- An empty heap. -/
def exHeap : Heap := ⟨fun _ => none, 0⟩

/-- The worked example's input data: `{"oldName": "John"}`. -/
def exData : JVal := .obj [("oldName", .str "John")]

/-- The caller's original object, materialized in the heap (it gets
address 0): the reference the caller holds across the call. -/
def exStart : HVal × Heap := materialize exData exHeap

/-- The worked example's transformation:
`{operation: "rename", path: "oldName", newPath: "name"}`. -/
def exRename : JVal :=
  .obj [("operation", .str "rename"), ("path", .str "oldName"), ("newPath", .str "name")]

/-- The transform branch of `jsonProcess` run on the example, in the
heap that already holds the caller's original object. -/
def exResult : HVal × Heap × Option String :=
  transformBranchH exStart.2 exData [exRename]

/-! ## Framing lemmas -/

theorem splitCh_ne_nil (sep : Char) (l : List Char) : splitCh sep l ≠ [] := by
  cases l with
  | nil => simp [splitCh]
  | cons c cs =>
    rw [splitCh]
    cases h : splitCh sep cs with
    | nil => simp
    | cons a as => by_cases hc : c = sep <;> simp [hc]

theorem splitCh_cons_sep (sep : Char) (xs : List Char) :
    splitCh sep (sep :: xs) = [] :: splitCh sep xs := by
  rw [splitCh]
  cases h : splitCh sep xs with
  | nil => exact absurd h (splitCh_ne_nil sep xs)
  | cons a as => simp

theorem splitCh_cons_ne (sep c : Char) (xs : List Char) {l : List Char} {ls : List (List Char)}
    (hc : ¬ c = sep) (h : splitCh sep xs = l :: ls) :
    splitCh sep (c :: xs) = (c :: l) :: ls := by
  rw [splitCh, h]
  simp [hc]

theorem hasCh_append (sep : Char) (a b : List Char) :
    hasCh sep (a ++ b) = (hasCh sep a || hasCh sep b) := by
  induction a with
  | nil => simp [hasCh]
  | cons c cs ih => simp [hasCh, ih, Bool.or_assoc]

theorem splitCh_of_not_hasCh {sep : Char} {l : List Char} (h : hasCh sep l = false) :
    splitCh sep l = [l] := by
  induction l with
  | nil => rfl
  | cons c cs ih =>
    rw [hasCh] at h
    simp only [Bool.or_eq_false_iff, decide_eq_false_iff_not] at h
    rw [splitCh, ih h.2]
    simp [h.1]

theorem lastD_cons (d x : α) {r : List α} (h : r ≠ []) : lastD d (x :: r) = lastD d r := by
  cases r with
  | nil => exact absurd rfl h
  | cons y ys => rfl

theorem lastD_append (d : α) (xs : List α) {ys : List α} (h : ys ≠ []) :
    lastD d (xs ++ ys) = lastD d ys := by
  induction xs with
  | nil => rfl
  | cons x xs ih =>
    rw [List.cons_append, lastD_cons d x (by simp [List.append_eq_nil]; intro _ hy; exact h hy), ih]

theorem dropLast_append_ne (xs : List α) {ys : List α} (h : ys ≠ []) :
    (xs ++ ys).dropLast = xs ++ ys.dropLast := by
  induction xs with
  | nil => rfl
  | cons x xs ih =>
    rw [List.cons_append]
    cases hxy : xs ++ ys with
    | nil => simp [List.append_eq_nil] at hxy; exact absurd hxy.2 h
    | cons z zs => rw [List.dropLast_cons₂, ← hxy, ih, List.cons_append]

theorem catMap_append (f : α → List β) (xs ys : List α) :
    catMap f (xs ++ ys) = catMap f xs ++ catMap f ys := by
  induction xs with
  | nil => rfl
  | cons x xs ih => simp [catMap, ih]

theorem splitCh_append (sep : Char) (a b : List Char) :
    splitCh sep (a ++ b) =
      (splitCh sep a).dropLast ++ splitCh sep (lastD [] (splitCh sep a) ++ b) := by
  induction a with
  | nil => simp [splitCh, lastD]
  | cons c cs ih =>
    by_cases hc : c = sep
    · have e1 : splitCh sep (c :: (cs ++ b)) = [] :: splitCh sep (cs ++ b) := by
        rw [hc, splitCh_cons_sep]
      have e2 : splitCh sep (c :: cs) = [] :: splitCh sep cs := by
        rw [hc, splitCh_cons_sep]
      obtain ⟨m, ms, hm⟩ : ∃ m ms, splitCh sep cs = m :: ms := by
        cases h : splitCh sep cs with
        | nil => exact absurd h (splitCh_ne_nil sep cs)
        | cons m ms => exact ⟨m, ms, rfl⟩
      rw [List.cons_append, e1, e2, ih, hm, List.dropLast_cons₂, List.cons_append]
      rfl
    · obtain ⟨m, ms, hm⟩ : ∃ m ms, splitCh sep cs = m :: ms := by
        cases h : splitCh sep cs with
        | nil => exact absurd h (splitCh_ne_nil sep cs)
        | cons m ms => exact ⟨m, ms, rfl⟩
      cases ms with
      | nil =>
        have ih' : splitCh sep (cs ++ b) = splitCh sep (m ++ b) := by
          rw [ih, hm]; simp [lastD]
        obtain ⟨n, ns, hn⟩ : ∃ n ns, splitCh sep (m ++ b) = n :: ns := by
          cases h2 : splitCh sep (m ++ b) with
          | nil => exact absurd h2 (splitCh_ne_nil _ _)
          | cons n ns => exact ⟨n, ns, rfl⟩
        have L : splitCh sep (c :: (cs ++ b)) = (c :: n) :: ns :=
          splitCh_cons_ne sep c _ hc (ih' ▸ hn)
        rw [List.cons_append, L, splitCh_cons_ne sep c cs hc hm]
        simp only [List.dropLast_single, List.nil_append, lastD]
        exact (splitCh_cons_ne sep c _ hc hn).symm
      | cons y ys =>
        have ih' : splitCh sep (cs ++ b) =
            (m :: (y :: ys).dropLast) ++ splitCh sep (lastD [] (y :: ys) ++ b) := by
          rw [ih, hm, List.dropLast_cons₂]
          rfl
        rw [List.cons_append] at ih'
        have L := splitCh_cons_ne sep c _ hc ih'
        rw [List.cons_append, L, splitCh_cons_ne sep c cs hc hm, List.dropLast_cons₂,
          List.cons_append]
        rfl

theorem hasCh_lastD_splitCh (sep : Char) (l : List Char) :
    hasCh sep (lastD [] (splitCh sep l)) = false := by
  induction l with
  | nil => rfl
  | cons c cs ih =>
    cases h : splitCh sep cs with
    | nil => exact absurd h (splitCh_ne_nil sep cs)
    | cons m ms =>
      by_cases hc : c = sep
      · rw [hc, splitCh_cons_sep, lastD_cons _ _ (splitCh_ne_nil sep cs)]
        exact ih
      · rw [splitCh_cons_ne sep c cs hc h]
        cases ms with
        | nil =>
          rw [h] at ih
          simp only [lastD] at ih ⊢
          simp [hasCh, hc, ih]
        | cons y ys =>
          rw [lastD_cons _ _ (by simp)]
          rw [h, lastD_cons _ _ (by simp)] at ih
          exact ih

theorem splitCh_two_of_hasCh {sep : Char} {l : List Char} (h : hasCh sep l = true) :
    ∃ x y ys, splitCh sep l = x :: y :: ys := by
  induction l with
  | nil => simp [hasCh] at h
  | cons c cs ih =>
    by_cases hc : c = sep
    · cases h2 : splitCh sep cs with
      | nil => exact absurd h2 (splitCh_ne_nil sep cs)
      | cons m ms => exact ⟨[], m, ms, by rw [hc, splitCh_cons_sep, h2]⟩
    · rw [hasCh] at h
      simp only [Bool.or_eq_true, decide_eq_true_eq] at h
      rcases h with h | h
      · exact absurd h hc
      · obtain ⟨x, y, ys, hx⟩ := ih h
        exact ⟨c :: x, y, ys, splitCh_cons_ne sep c cs hc hx⟩

theorem exists_decomp {sep : Char} {l : List Char} (h : hasCh sep l = true) :
    ∃ p, l = p ++ sep :: lastD [] (splitCh sep l) := by
  induction l with
  | nil => simp [hasCh] at h
  | cons c cs ih =>
    by_cases hc : c = sep
    · by_cases h2 : hasCh sep cs = true
      · obtain ⟨p, hp⟩ := ih h2
        refine ⟨c :: p, ?_⟩
        rw [hc, splitCh_cons_sep, lastD_cons _ _ (splitCh_ne_nil sep cs)]
        simpa [hc] using hp
      · rw [Bool.not_eq_true] at h2
        refine ⟨[], ?_⟩
        rw [hc, splitCh_cons_sep, splitCh_of_not_hasCh h2, lastD_cons _ _ (by simp)]
        rfl
    · rw [hasCh] at h
      simp only [Bool.or_eq_true, decide_eq_true_eq] at h
      rcases h with h | h
      · exact absurd h hc
      · obtain ⟨p, hp⟩ := ih h
        obtain ⟨x, y, ys, hx⟩ := splitCh_two_of_hasCh h
        have h5 : lastD [] (splitCh sep cs) = lastD [] (y :: ys) := by rw [hx]; rfl
        refine ⟨c :: p, ?_⟩
        rw [splitCh_cons_ne sep c cs hc hx]
        simp only [lastD]
        rw [← h5]
        simpa using hp

theorem processBuffer_fst_noNL (reg : Registry) (β : List Char) :
    hasCh '\n' (processBuffer reg β).1 = false := by
  rw [processBuffer]
  by_cases h : hasCh '\n' β = true
  · simp [h, hasCh_lastD_splitCh]
  · rw [Bool.not_eq_true] at h
    simp [h]

theorem processBuffer_append (reg : Registry) (β b : List Char) :
    processBuffer reg (β ++ b) =
      ((processBuffer reg ((processBuffer reg β).1 ++ b)).1,
        (processBuffer reg β).2 ++ (processBuffer reg ((processBuffer reg β).1 ++ b)).2) := by
  by_cases h : hasCh '\n' β = true
  · have e1 : processBuffer reg β =
        (lastD [] (splitCh '\n' β), catMap (processLine reg) (splitCh '\n' β).dropLast) := by
      rw [processBuffer]; simp [h]
    have hβb : hasCh '\n' (β ++ b) = true := by rw [hasCh_append, h]; rfl
    set buf' := lastD [] (splitCh '\n' β) with hbuf'
    have key : splitCh '\n' (β ++ b) = (splitCh '\n' β).dropLast ++ splitCh '\n' (buf' ++ b) :=
      splitCh_append '\n' β b
    by_cases h2 : hasCh '\n' (buf' ++ b) = true
    · have e2 : processBuffer reg (buf' ++ b) =
          (lastD [] (splitCh '\n' (buf' ++ b)),
            catMap (processLine reg) (splitCh '\n' (buf' ++ b)).dropLast) := by
        rw [processBuffer]; simp [h2]
      rw [e1]
      simp only
      rw [e2, processBuffer, if_pos hβb, key]
      dsimp only
      rw [lastD_append _ _ (splitCh_ne_nil '\n' (buf' ++ b)),
        dropLast_append_ne _ (splitCh_ne_nil '\n' (buf' ++ b)),
        catMap_append]
    · rw [Bool.not_eq_true] at h2
      have hN : splitCh '\n' (buf' ++ b) = [buf' ++ b] := splitCh_of_not_hasCh h2
      have e2 : processBuffer reg (buf' ++ b) = (buf' ++ b, []) := by
        rw [processBuffer]; simp [h2]
      rw [e1]
      simp only
      rw [e2, processBuffer, if_pos hβb, key, hN]
      dsimp only
      rw [lastD_append _ _ (by simp : ([buf' ++ b] : List (List Char)) ≠ []),
        dropLast_append_ne _ (by simp : ([buf' ++ b] : List (List Char)) ≠ [])]
      simp [catMap, lastD]
  · rw [Bool.not_eq_true] at h
    have e : processBuffer reg β = (β, []) := by rw [processBuffer]; simp [h]
    rw [e]
    simp

theorem processChunks_join (reg : Registry) (cs : List (List Char)) :
    ∀ buf, hasCh '\n' buf = false →
      processChunks reg buf cs = processBuffer reg (buf ++ flat cs) := by
  induction cs with
  | nil =>
    intro buf h
    rw [flat, List.append_nil, processChunks, processBuffer]
    simp [h]
  | cons c cs ih =>
    intro buf h
    rw [processChunks]
    simp only [processChunk]
    rw [ih _ (processBuffer_fst_noNL reg (buf ++ c))]
    rw [flat, ← List.append_assoc, processBuffer_append reg (buf ++ c) (flat cs)]

theorem catMap_processLine (reg : Registry) (L : List (List Char)) :
    catMap (processLine reg) L = (L.filter (fun l => !isBlank l)).map (respondLine reg) := by
  induction L with
  | nil => rfl
  | cons l ls ih =>
    rw [catMap, ih, processLine]
    by_cases h : isBlank l = true
    · simp [h]
    · rw [Bool.not_eq_true] at h
      simp [h]

theorem isBlank_skipWS {l : List Char} (h : isBlank l = true) : isBlank (skipWS l) = true := by
  induction l with
  | nil => exact h
  | cons c cs ih =>
    rw [isBlank, List.all_cons, Bool.and_eq_true] at h
    rw [skipWS]
    by_cases hj : isJsonWS c = true
    · rw [if_pos hj]
      exact ih h.2
    · rw [Bool.not_eq_true] at hj
      rw [hj]
      simp only [Bool.false_eq_true, if_false]
      rw [isBlank, List.all_cons, h.1, h.2]
      rfl

theorem skipWS_head_not_jsonWS : ∀ (l : List Char) (c : Char) (cs : List Char),
    skipWS l = c :: cs → isJsonWS c = false := by
  intro l
  induction l with
  | nil => intro c cs h; exact absurd h (by simp [skipWS])
  | cons d ds ih =>
    intro c cs h
    rw [skipWS] at h
    by_cases hj : isJsonWS d = true
    · rw [if_pos hj] at h
      exact ih c cs h
    · rw [Bool.not_eq_true] at hj
      rw [hj] at h
      simp only [Bool.false_eq_true, if_false] at h
      cases h
      exact hj

theorem isDig_isTrimWS_false {c : Char} (hd : isDig c = true) : isTrimWS c = false := by
  by_contra hcon
  rw [Bool.not_eq_false] at hcon
  rw [isDig, decide_eq_true_eq] at hd
  obtain ⟨h0, h9⟩ := hd
  rw [isTrimWS] at hcon
  simp only [Bool.or_eq_true, decide_eq_true_eq, Bool.and_eq_true] at hcon
  rcases hcon with
    (((((((((((((h | h) | h) | h) | h) | h) | h) | h) | ⟨h1, _⟩) | h) | h) | h) | h) | h) | h
  all_goals try subst h
  all_goals first
    | exact absurd h0 (by decide)
    | exact absurd h9 (by decide)
    | exact absurd (le_trans h1 h9) (by decide)

theorem parseV_blank (fuel : Nat) (l : List Char) (h : isBlank l = true) :
    ∃ e, parseV fuel l = .error e := by
  cases fuel with
  | zero => exact ⟨_, rfl⟩
  | succ fuel =>
    rw [parseV]
    cases hs : skipWS l with
    | nil => exact ⟨_, rfl⟩
    | cons c cs =>
      have hbs : isBlank (c :: cs) = true := hs ▸ isBlank_skipWS h
      rw [isBlank, List.all_cons, Bool.and_eq_true] at hbs
      have ht : isTrimWS c = true := hbs.1
      have hne : ∀ c₀ : Char, isTrimWS c₀ = true → isTrimWS c₀ = false → False := by
        intro c₀ h1 h2; rw [h1] at h2; exact Bool.true_eq_false.mp h2 |>.elim
      have h1 : ¬ c = 'n' := fun e => hne c ht (by rw [e]; decide)
      have h2 : ¬ c = 't' := fun e => hne c ht (by rw [e]; decide)
      have h3 : ¬ c = 'f' := fun e => hne c ht (by rw [e]; decide)
      have h4 : ¬ c = '"' := fun e => hne c ht (by rw [e]; decide)
      have h5 : ¬ c = '-' := fun e => hne c ht (by rw [e]; decide)
      have h6 : ¬ isDig c = true := fun e => hne c ht (isDig_isTrimWS_false e)
      have h7 : ¬ c = '[' := fun e => hne c ht (by rw [e]; decide)
      have h8 : ¬ c = '{' := fun e => hne c ht (by rw [e]; decide)
      refine ⟨"Unexpected token " ++ String.mk [c] ++ " in JSON", ?_⟩
      simp only [if_neg h1, if_neg h2, if_neg h3, if_neg h4, if_neg h5, if_neg h6, if_neg h7,
        if_neg h8]
      rfl

theorem parseJSON_blank {l : List Char} (h : isBlank l = true) :
    ∃ e, parseJSON l = .error e := by
  obtain ⟨e, he⟩ := parseV_blank (l.length + 1) l h
  exact ⟨e, by rw [parseJSON, he]; rfl⟩

theorem parseJSON_ok_not_blank {l : List Char} {v : JVal} (h : parseJSON l = .ok v) :
    isBlank l = false := by
  by_contra hcon
  rw [Bool.not_eq_false] at hcon
  obtain ⟨e, he⟩ := parseJSON_blank hcon
  rw [h] at he
  exact Except.noConfusion he

/-! ## Claims C1, C2, C3, C9: framing and per-line responses -/

/-! ## Async scheduling lemmas (claim C1) -/

theorem lookup_toPure : ∀ (reg : ARegistry) (name : String),
    List.lookup name (toPure reg) = (List.lookup name reg).map (fun h x => settle (h x))
  | [], _ => rfl
  | (k, v) :: rest, name => by
    show List.lookup name ((k, fun x => settle (v x)) :: toPure rest) =
      (List.lookup name ((k, v) :: rest)).map (fun h x => settle (h x))
    rw [List.lookup, List.lookup]
    by_cases he : (name == k) = true
    · rw [he]
      rfl
    · rw [Bool.not_eq_true] at he
      rw [he]
      exact lookup_toPure rest name

theorem lookup_toAsync : ∀ (reg : Registry) (name : String),
    List.lookup name (toAsync reg) = (List.lookup name reg).map (fun h x => AsyncRes.now (h x))
  | [], _ => rfl
  | (k, v) :: rest, name => by
    show List.lookup name ((k, fun x => AsyncRes.now (v x)) :: toAsync rest) =
      (List.lookup name ((k, v) :: rest)).map (fun h x => AsyncRes.now (h x))
    rw [List.lookup, List.lookup]
    by_cases he : (name == k) = true
    · rw [he]
      rfl
    · rw [Bool.not_eq_true] at he
      rw [he]
      exact lookup_toAsync rest name

/-- The value `handleMessage` settles to does not depend on where the
dispatched `await` suspends. -/
theorem settle_handleMessageA (reg : ARegistry) (m : JVal) :
    settle (handleMessageA reg m) = handleMessageAux (toPure reg) m := by
  cases ht : jsIndexE m "tool" with
  | error e =>
    have e1 : handleMessageA reg m = .now (.error e) := by
      rw [handleMessageA, ht]
    have e2 : handleMessageAux (toPure reg) m = .error e := by
      rw [handleMessageAux, ht]
      rfl
    rw [e1, e2]
    rfl
  | ok tool =>
    cases hp : jsIndexE m "params" with
    | error e =>
      have e1 : handleMessageA reg m = .now (.error e) := by
        rw [handleMessageA, ht, hp]
      have e2 : handleMessageAux (toPure reg) m = .error e := by
        rw [handleMessageAux, ht, hp]
        rfl
      rw [e1, e2]
      rfl
    | ok params =>
      have e1 : handleMessageA reg m =
          (match lookupToolA reg tool with
            | some ex => ex params
            | none => .now (.error ("Tool " ++ jsDisplay tool ++ " not found"))) := by
        rw [handleMessageA, ht, hp]
      have e2 : handleMessageAux (toPure reg) m =
          (match lookupTool (toPure reg) tool with
            | some ex => ex params
            | none => .error ("Tool " ++ jsDisplay tool ++ " not found")) := by
        rw [handleMessageAux, ht, hp]
        rfl
      rw [e1, e2]
      cases tool with
      | str name =>
        have e3 : lookupTool (toPure reg) (JVal.str name) =
            (List.lookup name reg).map (fun h x => settle (h x)) := lookup_toPure reg name
        have e4 : lookupToolA reg (JVal.str name) = List.lookup name reg := rfl
        rw [e3, e4]
        cases hx : List.lookup name reg with
        | none => rfl
        | some h => rfl
      | _ => rfl

/-- With every handler settling in the microtask drain, so does the
whole dispatch. -/
theorem handleMessageA_toAsync (reg : Registry) (m : JVal) :
    handleMessageA (toAsync reg) m = .now (handleMessageAux reg m) := by
  cases ht : jsIndexE m "tool" with
  | error e =>
    have e1 : handleMessageA (toAsync reg) m = .now (.error e) := by
      rw [handleMessageA, ht]
    have e2 : handleMessageAux reg m = .error e := by
      rw [handleMessageAux, ht]
      rfl
    rw [e1, e2]
  | ok tool =>
    cases hp : jsIndexE m "params" with
    | error e =>
      have e1 : handleMessageA (toAsync reg) m = .now (.error e) := by
        rw [handleMessageA, ht, hp]
      have e2 : handleMessageAux reg m = .error e := by
        rw [handleMessageAux, ht, hp]
        rfl
      rw [e1, e2]
    | ok params =>
      have e1 : handleMessageA (toAsync reg) m =
          (match lookupToolA (toAsync reg) tool with
            | some ex => ex params
            | none => .now (.error ("Tool " ++ jsDisplay tool ++ " not found"))) := by
        rw [handleMessageA, ht, hp]
      have e2 : handleMessageAux reg m =
          (match lookupTool reg tool with
            | some ex => ex params
            | none => .error ("Tool " ++ jsDisplay tool ++ " not found")) := by
        rw [handleMessageAux, ht, hp]
        rfl
      rw [e1, e2]
      cases tool with
      | str name =>
        have e3 : lookupToolA (toAsync reg) (JVal.str name) =
            (List.lookup name reg).map (fun h x => AsyncRes.now (h x)) := lookup_toAsync reg name
        have e4 : lookupTool reg (JVal.str name) = List.lookup name reg := rfl
        rw [e3, e4]
        cases hx : List.lookup name reg with
        | none => rfl
        | some h => rfl
      | _ => rfl

/-- Forgetting and re-adding microtask-only suspension is the
identity. -/
theorem toPure_toAsync (reg : Registry) : toPure (toAsync reg) = reg := by
  rw [toPure, toAsync, List.map_map]
  exact List.map_id reg

/-- The response line of a successfully parsed line is the envelope of
the dispatch's settled value. -/
theorem respondLine_envLine (reg : Registry) {l : List Char} {req : JVal}
    (hp : parseJSON l = .ok req) :
    respondLine reg l = envLine (handleMessageAux reg req) := by
  have e0 : respondLine reg l =
      (stringifyTop (handleMessage reg req)).data ++ ['\n'] := by
    rw [respondLine, hp]
  rw [e0]
  cases hm : handleMessageAux reg req with
  | ok v =>
    have e : handleMessage reg req = v := by
      show (match handleMessageAux reg req with
        | .ok v => v
        | .error m => errObj m) = v
      rw [hm]
    rw [e]
    rfl
  | error m2 =>
    have e : handleMessage reg req = errObj m2 := by
      show (match handleMessageAux reg req with
        | .ok v => v
        | .error m => errObj m) = errObj m2
      rw [hm]
    rw [e]
    rfl

/-- The loop body for one line settles the same response line as the
sequential model, however the dispatched `await` suspends; only the
suspension behaviour differs. -/
theorem respondLineA_cases (reg : ARegistry) (l : List Char) :
    (isBlank l = true ∧ respondLineA reg l = .skip ∧ processLine (toPure reg) l = []) ∨
    (respondLineA reg l = .sync (respondLine (toPure reg) l) ∧
      processLine (toPure reg) l = [respondLine (toPure reg) l]) ∨
    (respondLineA reg l = .susp (respondLine (toPure reg) l) ∧
      processLine (toPure reg) l = [respondLine (toPure reg) l]) := by
  by_cases hb : isBlank l = true
  · exact Or.inl ⟨hb, by rw [respondLineA, if_pos hb], by rw [processLine, if_pos hb]⟩
  · have hpl : processLine (toPure reg) l = [respondLine (toPure reg) l] := by
      rw [processLine, if_neg hb]
    cases hp : parseJSON l with
    | error e =>
      have ha : respondLineA reg l = .sync (envLine (.error "Invalid message format")) := by
        rw [respondLineA, if_neg hb, hp]
      have hr : respondLine (toPure reg) l = envLine (.error "Invalid message format") := by
        rw [respondLine, hp]
        rfl
      exact Or.inr (Or.inl ⟨by rw [ha, hr], hpl⟩)
    | ok req =>
      have hr : respondLine (toPure reg) l = envLine (handleMessageAux (toPure reg) req) :=
        respondLine_envLine (toPure reg) hp
      have e0 : respondLineA reg l =
          (match handleMessageA reg req with
            | .now r => LineRes.sync (envLine r)
            | .later r => LineRes.susp (envLine r)) := by
        rw [respondLineA, if_neg hb, hp]
      cases hmA : handleMessageA reg req with
      | now r =>
        have hr2 : r = handleMessageAux (toPure reg) req := by
          have h := settle_handleMessageA reg req
          rw [hmA] at h
          exact h
        have ha : respondLineA reg l = .sync (envLine r) := by
          rw [e0, hmA]
        exact Or.inr (Or.inl ⟨by rw [ha, hr, hr2], hpl⟩)
      | later r =>
        have hr2 : r = handleMessageAux (toPure reg) req := by
          have h := settle_handleMessageA reg req
          rw [hmA] at h
          exact h
        have ha : respondLineA reg l = .susp (envLine r) := by
          rw [e0, hmA]
        exact Or.inr (Or.inr ⟨by rw [ha, hr, hr2], hpl⟩)

/-- With microtask-only handlers the loop body never suspends. -/
theorem respondLineA_toAsync (reg : Registry) (l : List Char) :
    respondLineA (toAsync reg) l =
      (if isBlank l then .skip else .sync (respondLine reg l)) := by
  by_cases hb : isBlank l = true
  · rw [respondLineA, if_pos hb, if_pos hb]
  · rw [if_neg hb]
    cases hp : parseJSON l with
    | error e =>
      have hr : respondLine reg l = envLine (.error "Invalid message format") := by
        rw [respondLine, hp]
        rfl
      rw [respondLineA, if_neg hb, hp, hr]
    | ok req =>
      have e0 : respondLineA (toAsync reg) l =
          (match handleMessageA (toAsync reg) req with
            | .now r => LineRes.sync (envLine r)
            | .later r => LineRes.susp (envLine r)) := by
        rw [respondLineA, if_neg hb, hp]
      rw [e0, handleMessageA_toAsync, respondLine_envLine reg hp]

/-- An invocation that never suspends writes exactly the sequential
responses of its lines. -/
theorem runEvent_none (reg : ARegistry) :
    ∀ (ls ws : List (List Char)), runEvent reg ls = (ws, none) →
      ws = catMap (processLine (toPure reg)) ls
  | [], ws, h => by
    have h' : (([], none) : List (List Char) × Option Pending) = (ws, none) := h
    injection h' with h1 _
    rw [← h1]
    rfl
  | l :: ls, ws, h => by
    rcases respondLineA_cases reg l with ⟨hb, ha, hpl⟩ | ⟨ha, hpl⟩ | ⟨ha, hpl⟩
    · have e : runEvent reg (l :: ls) = runEvent reg ls := by
        rw [runEvent, ha]
      rw [e] at h
      rw [runEvent_none reg ls ws h, catMap, hpl, List.nil_append]
    · have e : runEvent reg (l :: ls) =
          (respondLine (toPure reg) l :: (runEvent reg ls).1, (runEvent reg ls).2) := by
        rw [runEvent, ha]
      rw [e] at h
      injection h with h1 h2
      have hre : runEvent reg ls = ((runEvent reg ls).1, none) := Prod.ext rfl h2
      rw [← h1, runEvent_none reg ls (runEvent reg ls).1 hre, catMap, hpl]
      rfl
    · have e : runEvent reg (l :: ls) =
          ([], some (respondLine (toPure reg) l, ls)) := by
        rw [runEvent, ha]
      rw [e] at h
      injection h with _ h2
      exact Option.noConfusion h2

/-- An invocation that suspends has written the responses of the lines
before the suspension; the suspended line's own response and the
remaining lines are owed, and at least one line was consumed. -/
theorem runEvent_some (reg : ARegistry) :
    ∀ (ls ws : List (List Char)) (w : List Char) (ls2 : List (List Char)),
      runEvent reg ls = (ws, some (w, ls2)) →
      catMap (processLine (toPure reg)) ls =
        ws ++ w :: catMap (processLine (toPure reg)) ls2 ∧ ls2.length < ls.length
  | [], ws, w, ls2, h => by
    have h' : (([], none) : List (List Char) × Option Pending) = (ws, some (w, ls2)) := h
    injection h' with _ h2
    exact Option.noConfusion h2
  | l :: ls, ws, w, ls2, h => by
    rcases respondLineA_cases reg l with ⟨hb, ha, hpl⟩ | ⟨ha, hpl⟩ | ⟨ha, hpl⟩
    · have e : runEvent reg (l :: ls) = runEvent reg ls := by
        rw [runEvent, ha]
      rw [e] at h
      obtain ⟨h1, h2⟩ := runEvent_some reg ls ws w ls2 h
      exact ⟨by rw [catMap, hpl, List.nil_append, h1], Nat.lt_succ_of_lt h2⟩
    · have e : runEvent reg (l :: ls) =
          (respondLine (toPure reg) l :: (runEvent reg ls).1, (runEvent reg ls).2) := by
        rw [runEvent, ha]
      rw [e] at h
      injection h with h1 h2
      have hre : runEvent reg ls = ((runEvent reg ls).1, some (w, ls2)) := Prod.ext rfl h2
      obtain ⟨h3, h4⟩ := runEvent_some reg ls (runEvent reg ls).1 w ls2 hre
      refine ⟨?_, Nat.lt_succ_of_lt h4⟩
      rw [catMap, hpl, ← h1, h3]
      rfl
    · have e : runEvent reg (l :: ls) =
          ([], some (respondLine (toPure reg) l, ls)) := by
        rw [runEvent, ha]
      rw [e] at h
      injection h with h1 h2
      injection h2 with h3
      injection h3 with h4 h5
      refine ⟨?_, by rw [← h5]; exact Nat.lt_succ_self _⟩
      rw [catMap, hpl, ← h1, ← h4, ← h5]
      rfl

/-- With microtask-only handlers an invocation runs its whole loop at
once, writing the sequential responses. -/
theorem runEvent_toAsync (reg : Registry) :
    ∀ ls, runEvent (toAsync reg) ls = (catMap (processLine reg) ls, none)
  | [] => rfl
  | l :: ls => by
    have h := respondLineA_toAsync reg l
    by_cases hb : isBlank l = true
    · rw [if_pos hb] at h
      have e : runEvent (toAsync reg) (l :: ls) = runEvent (toAsync reg) ls := by
        rw [runEvent, h]
      rw [e, runEvent_toAsync reg ls, catMap, processLine, if_pos hb, List.nil_append]
    · rw [if_neg hb] at h
      have e : runEvent (toAsync reg) (l :: ls) =
          (respondLine reg l :: (runEvent (toAsync reg) ls).1,
           (runEvent (toAsync reg) ls).2) := by
        rw [runEvent, h]
      rw [e, runEvent_toAsync reg ls, catMap, processLine, if_neg hb]
      rfl

theorem qFuel_append (a b : List Pending) : qFuel (a ++ b) = qFuel a + qFuel b := by
  rw [qFuel, qFuel, qFuel, List.map_append, List.sum_append]

/-- Draining the pending completions emits, in some order, exactly the
owed response and the remaining sequential responses of every
suspended invocation. -/
theorem drainQ_perm (reg : ARegistry) :
    ∀ (fuel : Nat) (q : List Pending), qFuel q ≤ fuel →
      (drainQ reg fuel q).Perm
        (catMap (fun s => s.1 :: catMap (processLine (toPure reg)) s.2) q)
  | fuel, [], _ => by
    cases fuel with
    | zero => exact List.Perm.refl []
    | succ n => exact List.Perm.refl []
  | fuel, (w, ls) :: q, hf => by
    cases fuel with
    | zero =>
      rw [qFuel, List.map_cons, List.sum_cons] at hf
      omega
    | succ n =>
      rw [qFuel, List.map_cons, List.sum_cons] at hf
      cases hre : runEvent reg ls with
      | mk ws op =>
        cases op with
        | none =>
          have e : drainQ reg (n + 1) ((w, ls) :: q) = (w :: ws) ++ drainQ reg n q := by
            rw [drainQ, hre]
          have hw : ws = catMap (processLine (toPure reg)) ls := runEvent_none reg ls ws hre
          have hq : qFuel q ≤ n := by
            rw [qFuel]
            omega
          have ih := drainQ_perm reg n q hq
          rw [e, catMap, hw]
          exact List.Perm.append_left _ ih
        | some s =>
          obtain ⟨w2, ls2⟩ := s
          have e : drainQ reg (n + 1) ((w, ls) :: q) =
              (w :: ws) ++ drainQ reg n (q ++ [(w2, ls2)]) := by
            rw [drainQ, hre]
          obtain ⟨h3, h4⟩ := runEvent_some reg ls ws w2 ls2 hre
          have hq : qFuel (q ++ [(w2, ls2)]) ≤ n := by
            rw [qFuel_append]
            have h5 : qFuel [(w2, ls2)] = ls2.length + 1 := rfl
            have hf2 : ls.length + 1 + qFuel q ≤ n + 1 := hf
            rw [h5]
            omega
          have ih := drainQ_perm reg n (q ++ [(w2, ls2)]) hq
          have hc : catMap (fun s => s.1 :: catMap (processLine (toPure reg)) s.2)
              (q ++ [(w2, ls2)]) =
            catMap (fun s => s.1 :: catMap (processLine (toPure reg)) s.2) q ++
              ((w2 :: catMap (processLine (toPure reg)) ls2) ++ []) := by
            rw [catMap_append]
            rfl
          rw [hc] at ih
          rw [e, catMap, h3]
          refine List.Perm.trans (List.Perm.append_left (w :: ws) ih) ?_
          rw [List.append_nil]
          refine List.Perm.trans
            (List.Perm.append_left (w :: ws) List.perm_append_comm) ?_
          rw [← List.append_assoc]
          exact List.Perm.refl _

/-- One `data` event's framing and responses, split into the frame and
the per-line responses. -/
theorem processChunk_frame (reg : Registry) (buf c : List Char) :
    processChunk reg buf c =
      ((frameChunk buf c).1, catMap (processLine reg) (frameChunk buf c).2) := by
  rw [processChunk, processBuffer, frameChunk]
  by_cases h : hasCh '\n' (buf ++ c) = true
  · rw [if_pos h, if_pos h]
  · rw [Bool.not_eq_true] at h
    rw [h]
    simp only [Bool.false_eq_true, if_false]
    rfl

/-- The events' own writes followed by what the suspended invocations
still owe are, in some order, exactly the sequential responses. -/
theorem asyncEvents_perm (reg : ARegistry) :
    ∀ (cs : List (List Char)) (buf : List Char),
      ((asyncEvents reg buf cs).2.1 ++
        catMap (fun s => s.1 :: catMap (processLine (toPure reg)) s.2)
          (asyncEvents reg buf cs).2.2).Perm
        (processChunks (toPure reg) buf cs).2
  | [], buf => List.Perm.refl []
  | c :: cs, buf => by
    have ih := asyncEvents_perm reg cs (frameChunk buf c).1
    have hpc := processChunk_frame (toPure reg) buf c
    have hpc1 : (processChunk (toPure reg) buf c).1 = (frameChunk buf c).1 := by
      rw [hpc]
    have hpc2 : (processChunk (toPure reg) buf c).2 =
        catMap (processLine (toPure reg)) (frameChunk buf c).2 := by
      rw [hpc]
    show (((runEvent reg (frameChunk buf c).2).1 ++
            (asyncEvents reg (frameChunk buf c).1 cs).2.1) ++
          catMap (fun s => s.1 :: catMap (processLine (toPure reg)) s.2)
            ((match (runEvent reg (frameChunk buf c).2).2 with
              | some s => [s]
              | none => []) ++ (asyncEvents reg (frameChunk buf c).1 cs).2.2)).Perm
      ((processChunk (toPure reg) buf c).2 ++
        (processChunks (toPure reg) (processChunk (toPure reg) buf c).1 cs).2)
    rw [hpc1, hpc2]
    cases hre : runEvent reg (frameChunk buf c).2 with
    | mk ws op =>
      cases op with
      | none =>
        have hw : ws = catMap (processLine (toPure reg)) (frameChunk buf c).2 :=
          runEvent_none reg _ ws hre
        rw [← hw]
        show ((ws ++ (asyncEvents reg (frameChunk buf c).1 cs).2.1) ++
            catMap (fun s => s.1 :: catMap (processLine (toPure reg)) s.2)
              (asyncEvents reg (frameChunk buf c).1 cs).2.2).Perm
          (ws ++ (processChunks (toPure reg) (frameChunk buf c).1 cs).2)
        rw [List.append_assoc]
        exact List.Perm.append_left ws ih
      | some s =>
        obtain ⟨w2, ls2⟩ := s
        obtain ⟨h3, h4⟩ := runEvent_some reg (frameChunk buf c).2 ws w2 ls2 hre
        rw [h3]
        show ((ws ++ (asyncEvents reg (frameChunk buf c).1 cs).2.1) ++
            catMap (fun s => s.1 :: catMap (processLine (toPure reg)) s.2)
              ((w2, ls2) :: (asyncEvents reg (frameChunk buf c).1 cs).2.2)).Perm
          ((ws ++ w2 :: catMap (processLine (toPure reg)) ls2) ++
            (processChunks (toPure reg) (frameChunk buf c).1 cs).2)
        rw [catMap]
        rw [List.append_assoc, List.append_assoc]
        refine List.Perm.append_left ws ?_
        refine List.Perm.trans ?_
          (List.Perm.append_left (w2 :: catMap (processLine (toPure reg)) ls2) ih)
        rw [← List.append_assoc]
        refine List.Perm.trans
          (List.Perm.append_right _ List.perm_append_comm) ?_
        rw [List.append_assoc]

/-- When no invocation suspended, the events' writes are exactly the
sequential responses, in order. -/
theorem asyncEvents_noSusp (reg : ARegistry) :
    ∀ (cs : List (List Char)) (buf : List Char),
      (asyncEvents reg buf cs).2.2 = [] →
      (asyncEvents reg buf cs).2.1 = (processChunks (toPure reg) buf cs).2
  | [], _, _ => rfl
  | c :: cs, buf, h => by
    have h' : (match (runEvent reg (frameChunk buf c).2).2 with
        | some s => [s]
        | none => []) ++ (asyncEvents reg (frameChunk buf c).1 cs).2.2 = [] := h
    cases hre : (runEvent reg (frameChunk buf c).2).2 with
    | some s =>
      rw [hre] at h'
      have h'' : s :: (asyncEvents reg (frameChunk buf c).1 cs).2.2 = [] := h'
      exact List.noConfusion h''
    | none =>
      rw [hre] at h'
      have h2 : (asyncEvents reg (frameChunk buf c).1 cs).2.2 = [] := h'
      have ih := asyncEvents_noSusp reg cs (frameChunk buf c).1 h2
      have hw : (runEvent reg (frameChunk buf c).2).1 =
          catMap (processLine (toPure reg)) (frameChunk buf c).2 :=
        runEvent_none reg _ _ (Prod.ext rfl hre)
      have hpc := processChunk_frame (toPure reg) buf c
      have hpc1 : (processChunk (toPure reg) buf c).1 = (frameChunk buf c).1 := by
        rw [hpc]
      have hpc2 : (processChunk (toPure reg) buf c).2 =
          catMap (processLine (toPure reg)) (frameChunk buf c).2 := by
        rw [hpc]
      show (runEvent reg (frameChunk buf c).2).1 ++
          (asyncEvents reg (frameChunk buf c).1 cs).2.1 =
        (processChunk (toPure reg) buf c).2 ++
          (processChunks (toPure reg) (processChunk (toPure reg) buf c).1 cs).2
      rw [hw, ih, hpc1, hpc2]

/-- With microtask-only handlers no invocation ever suspends and the
events' writes are the sequential pipeline's. -/
theorem asyncEvents_toAsync (reg : Registry) :
    ∀ (cs : List (List Char)) (buf : List Char),
      asyncEvents (toAsync reg) buf cs =
        ((processChunks reg buf cs).1, (processChunks reg buf cs).2, ([] : List Pending))
  | [], buf => rfl
  | c :: cs, buf => by
    have ih := asyncEvents_toAsync reg cs (frameChunk buf c).1
    have hre := runEvent_toAsync reg (frameChunk buf c).2
    have hpc := processChunk_frame reg buf c
    have hpc1 : (processChunk reg buf c).1 = (frameChunk buf c).1 := by
      rw [hpc]
    have hpc2 : (processChunk reg buf c).2 =
        catMap (processLine reg) (frameChunk buf c).2 := by
      rw [hpc]
    show ((asyncEvents (toAsync reg) (frameChunk buf c).1 cs).1,
      (runEvent (toAsync reg) (frameChunk buf c).2).1 ++
        (asyncEvents (toAsync reg) (frameChunk buf c).1 cs).2.1,
      (match (runEvent (toAsync reg) (frameChunk buf c).2).2 with
        | some s => [s]
        | none => []) ++
        (asyncEvents (toAsync reg) (frameChunk buf c).1 cs).2.2) =
      ((processChunks reg (processChunk reg buf c).1 cs).1,
       (processChunk reg buf c).2 ++
         (processChunks reg (processChunk reg buf c).1 cs).2, [])
    rw [ih, hre, hpc1, hpc2]
    rfl

/-- The connection's writes are, in some order, exactly the sequential
responses: one per non-blank completed line. -/
theorem asyncWrites_perm (reg : ARegistry) (chunks : List (List Char)) :
    (asyncWrites reg chunks).Perm (processChunks (toPure reg) [] chunks).2 := by
  refine List.Perm.trans
    (List.Perm.append_left (asyncEvents reg [] chunks).2.1
      (drainQ_perm reg (qFuel (asyncEvents reg [] chunks).2.2)
        (asyncEvents reg [] chunks).2.2 (le_refl _))) ?_
  exact asyncEvents_perm reg chunks []

/-- An execution in which no invocation suspended writes exactly the
sequential responses, in order. -/
theorem asyncWrites_noSusp (reg : ARegistry) (chunks : List (List Char))
    (h : (asyncEvents reg [] chunks).2.2 = []) :
    asyncWrites reg chunks = (processChunks (toPure reg) [] chunks).2 := by
  show (asyncEvents reg [] chunks).2.1 ++
      drainQ reg (qFuel (asyncEvents reg [] chunks).2.2) (asyncEvents reg [] chunks).2.2 =
    (processChunks (toPure reg) [] chunks).2
  rw [h, asyncEvents_noSusp reg chunks [] h]
  rw [show drainQ reg (qFuel ([] : List Pending)) [] = [] from rfl, List.append_nil]

/-- With microtask-only handlers the async execution IS the sequential
pipeline. -/
theorem asyncWrites_toAsync (reg : Registry) (chunks : List (List Char)) :
    asyncWrites (toAsync reg) chunks = (processChunks reg [] chunks).2 := by
  have h : (asyncEvents (toAsync reg) [] chunks).2.2 = [] := by
    rw [asyncEvents_toAsync]
  rw [asyncWrites_noSusp (toAsync reg) chunks h, toPure_toAsync]

/-- **C1 counterexample.**  The async listener does not preserve
cross-chunk response order.  Chunk 1 is a complete `fileContent` read
request: its invocation suspends at `await this.handleMessage` inside
the `fs` read.  Chunk 2 arrives before the read completes and is an
`echo` request, whose invocation runs to completion at once.  The echo
response is written first although its request line was received
second; the order the original claim asserts is the sequential one,
which `processChunks` yields and which is the reverse.  Exactly one
response per line is still written — only the order differs. -/
theorem c1_counterexample_async_reorder :
    asyncWrites aRegistry₀ [fcLine, echoLine] =
      ["\x7b\"message\":\"hi\"\x7d\n".data,
       "\x7b\"content\":\"file data\"\x7d\n".data] ∧
    (processChunks (toPure aRegistry₀) [] [fcLine, echoLine]).2 =
      ["\x7b\"content\":\"file data\"\x7d\n".data,
       "\x7b\"message\":\"hi\"\x7d\n".data] ∧
    asyncWrites aRegistry₀ [fcLine, echoLine] ≠
      (processChunks (toPure aRegistry₀) [] [fcLine, echoLine]).2 := by
  refine ⟨rfl, rfl, ?_⟩
  intro h
  exact absurd h (by decide)

/-- **C1** (amended).  For every connection: the async execution
writes, in some order, exactly one response line per non-blank
completed request line — the count part of the claim holds under any
interleaving (conjunct 1); an execution in which no listener
invocation suspends writes exactly the sequential responses, in
received order (conjunct 2), and in particular a registry whose
handlers all settle in the microtask drain is order-exact (conjunct
3); the sequential responses are exactly one `respondLine` per
non-blank completed line, in received order (conjunct 4), and for a
successfully parsed line that response is the serialized dispatch
result (conjunct 5).  Cross-chunk response order in the presence of an
I/O-suspending tool is NOT guaranteed: `c1_counterexample_async_reorder`
refutes it. -/
theorem c1_one_response_per_line :
    (∀ (areg : ARegistry) (chunks : List (List Char)),
      (asyncWrites areg chunks).Perm (processChunks (toPure areg) [] chunks).2) ∧
    (∀ (areg : ARegistry) (chunks : List (List Char)),
      (asyncEvents areg [] chunks).2.2 = [] →
      asyncWrites areg chunks = (processChunks (toPure areg) [] chunks).2) ∧
    (∀ (reg : Registry) (chunks : List (List Char)),
      asyncWrites (toAsync reg) chunks = (processChunks reg [] chunks).2) ∧
    (∀ (reg : Registry) (chunks : List (List Char)),
      (processChunks reg [] chunks).2 =
        (((splitCh '\n' (flat chunks)).dropLast.filter (fun l => !isBlank l)).map
          (respondLine reg))) ∧
    (∀ (reg : Registry) (l : List Char) (req : JVal), parseJSON l = .ok req →
      respondLine reg l = (stringifyTop (handleMessage reg req)).data ++ ['\n']) := by
  refine ⟨asyncWrites_perm, asyncWrites_noSusp, asyncWrites_toAsync, ?_, ?_⟩
  · intro reg chunks
    rw [show processChunks reg [] chunks = processBuffer reg ([] ++ flat chunks) from
      processChunks_join reg chunks [] rfl]
    rw [List.nil_append, processBuffer]
    by_cases h : hasCh '\n' (flat chunks) = true
    · rw [if_pos h]
      exact catMap_processLine reg _
    · rw [Bool.not_eq_true] at h
      rw [h]
      simp only [Bool.false_eq_true, if_false]
      rw [splitCh_of_not_hasCh h]
      rfl
  · intro reg l req h
    rw [respondLine, h]

/-- Witness for C1: the no-suspension hypothesis of conjunct 2 at a
one-chunk `\x7b\x7d` request on the microtask-only registry, and the
parse hypothesis of conjunct 5 at the line `\x7b\x7d`. -/
theorem c1_one_response_per_line_witness :
    (asyncEvents (toAsync registry₀) [] ["\x7b\x7d\n".data]).2.2 = [] ∧
    asyncWrites (toAsync registry₀) ["\x7b\x7d\n".data] =
      (processChunks (toPure (toAsync registry₀)) [] ["\x7b\x7d\n".data]).2 ∧
    parseJSON "\x7b\x7d".data = .ok (.obj []) ∧
    respondLine registry₀ "\x7b\x7d".data =
      (stringifyTop (handleMessage registry₀ (.obj []))).data ++ ['\n'] :=
  ⟨rfl,
   c1_one_response_per_line.2.1 (toAsync registry₀) ["\x7b\x7d\n".data] rfl,
   rfl,
   c1_one_response_per_line.2.2.2.2 registry₀ "\x7b\x7d".data (.obj []) rfl⟩

/-- **C2.**  The framer is invariant under re-chunking: after each
chunk, exactly the text after the last `\n` of the accumulated buffer
is retained as the new buffer and everything before it is processed in
line order (first conjunct); a chunk sequence is processed exactly like
its concatenation (second conjunct); the split `echo` message yields
the same single response as the unsplit one, and two messages in one
write yield two responses in textual order (last conjuncts). -/
theorem c2_rechunking_invariant :
    (∀ (reg : Registry) (buf chunk : List Char),
      (hasCh '\n' (buf ++ chunk) = false → (processChunk reg buf chunk).1 = buf ++ chunk) ∧
      (hasCh '\n' (buf ++ chunk) = true →
        hasCh '\n' (processChunk reg buf chunk).1 = false ∧
        (∃ p, buf ++ chunk = p ++ '\n' :: (processChunk reg buf chunk).1) ∧
        (processChunk reg buf chunk).2 =
          catMap (processLine reg) (splitCh '\n' (buf ++ chunk)).dropLast)) ∧
    (∀ (reg : Registry) (buf : List Char) (chunks : List (List Char)),
      hasCh '\n' buf = false →
      processChunks reg buf chunks = processChunk reg buf (flat chunks)) ∧
    (∀ lc sf fc si : Handler,
      processChunks (mkRegistry lc sf fc si) []
          ["\x7b\"tool\":\"echo\",\"par".data, "ams\":\x7b\"message\":\"hi\"\x7d\x7d\n".data] =
        processChunks (mkRegistry lc sf fc si) []
          ["\x7b\"tool\":\"echo\",\"params\":\x7b\"message\":\"hi\"\x7d\x7d\n".data] ∧
      (processChunks (mkRegistry lc sf fc si) []
          ["\x7b\"tool\":\"echo\",\"par".data, "ams\":\x7b\"message\":\"hi\"\x7d\x7d\n".data]).2 =
        ["\x7b\"message\":\"hi\"\x7d\n".data]) ∧
    (∀ lc sf fc si : Handler,
      (processChunks (mkRegistry lc sf fc si) []
          [("\x7b\"tool\":\"echo\",\"params\":\x7b\"message\":\"a\"\x7d\x7d\n" ++
            "\x7b\"tool\":\"echo\",\"params\":\x7b\"message\":\"b\"\x7d\x7d\n").data]).2 =
        ["\x7b\"message\":\"a\"\x7d\n".data, "\x7b\"message\":\"b\"\x7d\n".data]) := by
  refine ⟨?_, ?_, ?_, ?_⟩
  · intro reg buf chunk
    constructor
    · intro h
      rw [processChunk, processBuffer, h]
      simp
    · intro h
      refine ⟨processBuffer_fst_noNL reg (buf ++ chunk), ?_, ?_⟩
      · have hd := exists_decomp h
        have e : (processChunk reg buf chunk).1 = lastD [] (splitCh '\n' (buf ++ chunk)) := by
          rw [processChunk, processBuffer, if_pos h]
        rw [e]
        exact hd
      · rw [processChunk, processBuffer, if_pos h]
  · intro reg buf chunks h
    exact processChunks_join reg chunks buf h
  · intro lc sf fc si
    exact ⟨rfl, rfl⟩
  · intro lc sf fc si
    rfl

/-- Witness for C2 at concrete chunks. -/
theorem c2_rechunking_invariant_witness :
    (processChunks registry₀ [] ["ab".data, "c\n".data] =
      processChunk registry₀ [] (flat ["ab".data, "c\n".data])) ∧
    (∃ p, "ab".data ++ "c\n".data = p ++ '\n' :: (processChunk registry₀ "ab".data "c\n".data).1) :=
  ⟨c2_rechunking_invariant.2.1 registry₀ [] ["ab".data, "c\n".data] rfl,
    ((c2_rechunking_invariant.1 registry₀ "ab".data "c\n".data).2 rfl).2.1⟩

/-- **C3, counterexample.**  The line consisting of a single space is a
complete line and is not valid JSON, yet the server writes no response
at all for it (the blank-line `continue` precedes the parse), refuting
the claim as stated for whitespace-only lines. -/
theorem c3_counterexample_blank_line :
    (∃ e, parseJSON " ".data = .error e) ∧
    processChunk registry₀ [] " \n".data = ([], []) :=
  ⟨⟨"Unexpected end of JSON input", rfl⟩, rfl⟩

/-- **C3, amended.**  For every complete line that is not empty or
whitespace-only and is not valid JSON, the server writes exactly the
response `{"error":"Invalid message format"}` for that line, and the
remaining lines of the same buffer are still processed exactly as they
otherwise would be; a malformed line never aborts processing of later
lines. -/
theorem c3_invalid_json_error_response :
    ∀ (reg : Registry) (l : List Char) (e : String) (rest : List (List Char)),
      isBlank l = false → parseJSON l = .error e →
      processLine reg l = ["\x7b\"error\":\"Invalid message format\"\x7d\n".data] ∧
      catMap (processLine reg) (l :: rest) =
        "\x7b\"error\":\"Invalid message format\"\x7d\n".data :: catMap (processLine reg) rest := by
  intro reg l e rest hb hp
  have h1 : processLine reg l = ["\x7b\"error\":\"Invalid message format\"\x7d\n".data] := by
    rw [processLine, hb]
    simp only [Bool.false_eq_true, if_false]
    rw [respondLine, hp]
    rfl
  exact ⟨h1, by rw [catMap, h1]; rfl⟩

/-- Witness for C3 (amended) at the malformed line `{`. -/
theorem c3_invalid_json_error_response_witness :
    isBlank "\x7b".data = false ∧
    processLine registry₀ "\x7b".data = ["\x7b\"error\":\"Invalid message format\"\x7d\n".data] :=
  ⟨rfl,
    (c3_invalid_json_error_response registry₀ "\x7b".data
      "Expected property name in JSON" [] rfl rfl).1⟩

/-- **C9.**  Every line that parses as a JSON object with no `tool`
field gets exactly one response, `{"error":"Tool undefined not found"}`:
destructuring yields `tool === undefined`, the `Map` lookup misses, and
the template literal prints `undefined` — the missing envelope is
reported as an unknown-tool dispatch error, not as an invalid-format
error. -/
theorem c9_missing_tool_field :
    ∀ (reg : Registry) (l : List Char) (fs : List (String × JVal)),
      parseJSON l = .ok (.obj fs) → fs.lookup "tool" = none →
      processLine reg l = ["\x7b\"error\":\"Tool undefined not found\"\x7d\n".data] := by
  intro reg l fs hp hl
  have hb : isBlank l = false := parseJSON_ok_not_blank hp
  have hmsg : handleMessage reg (.obj fs) = errObj "Tool undefined not found" := by
    simp only [handleMessage, handleMessageAux, jsIndexE, jsGetField, hl, bind, Except.bind,
      lookupTool, jsDisplay]
    rfl
  rw [processLine, hb]
  simp only [Bool.false_eq_true, if_false]
  rw [respondLine, hp]
  show [(stringifyTop (handleMessage reg (.obj fs))).data ++ ['\n']] =
    ["\x7b\"error\":\"Tool undefined not found\"\x7d\n".data]
  rw [hmsg]
  rfl

/-- Witness for C9 at the line `{}`. -/
theorem c9_missing_tool_field_witness :
    parseJSON "\x7b\x7d".data = .ok (.obj []) ∧
    List.lookup "tool" ([] : List (String × JVal)) = none ∧
    processLine registry₀ "\x7b\x7d".data = ["\x7b\"error\":\"Tool undefined not found\"\x7d\n".data] :=
  ⟨rfl, rfl, c9_missing_tool_field registry₀ "\x7b\x7d".data [] rfl rfl⟩

/-! ## Claim C4: the dispatcher -/

/-- **C4.**  `handleMessage` (a total function here, modelling that the
promise always resolves) maps a `{tool, params}` request to: the exact
`Tool <name> not found` envelope when the registry misses; the exact
`{error: m}` envelope when the handler fails with message `m`; and the
handler's success value otherwise. -/
theorem c4_dispatch_total :
    ∀ (reg : Registry) (t : String) (p : JVal),
      (reg.lookup t = none →
        handleMessage reg (mkReq t p) = errObj ("Tool " ++ t ++ " not found")) ∧
      (∀ ex m, reg.lookup t = some ex → ex p = .error m →
        handleMessage reg (mkReq t p) = errObj m) ∧
      (∀ ex v, reg.lookup t = some ex → ex p = .ok v →
        handleMessage reg (mkReq t p) = v) := by
  intro reg t p
  have hbase : handleMessage reg (mkReq t p) =
      (match reg.lookup t with
        | some ex => (match ex p with | .ok v => v | .error m => errObj m)
        | none => errObj ("Tool " ++ t ++ " not found")) := by
    show (match handleMessageAux reg (mkReq t p) with
      | .ok v => v | .error m => errObj m) = _
    have haux : handleMessageAux reg (mkReq t p) =
        (match reg.lookup t with
          | some ex => ex p
          | none => .error ("Tool " ++ t ++ " not found")) := rfl
    rw [haux]
    cases reg.lookup t with
    | none => rfl
    | some ex => rfl
  refine ⟨?_, ?_, ?_⟩
  · intro hn
    rw [hbase, hn]
  · intro ex m hs he
    rw [hbase, hs]
    show (match ex p with | .ok v => v | .error m => errObj m) = errObj m
    rw [he]
  · intro ex v hs ho
    rw [hbase, hs]
    show (match ex p with | .ok v => v | .error m => errObj m) = v
    rw [ho]

/-- Witness for C4: a miss, a failing handler and a succeeding one. -/
theorem c4_dispatch_total_witness :
    handleMessage [] (mkReq "echo" .null) = errObj "Tool echo not found" ∧
    handleMessage [("t", fun _ => .error "boom")] (mkReq "t" .null) = errObj "boom" ∧
    handleMessage [("t", fun _ => .ok (.bool true))] (mkReq "t" .null) = .bool true :=
  ⟨(c4_dispatch_total [] "echo" .null).1 rfl,
    (c4_dispatch_total [("t", fun _ => .error "boom")] "t" .null).2.1 _ "boom" rfl rfl,
    (c4_dispatch_total [("t", fun _ => .ok (.bool true))] "t" .null).2.2 _ (.bool true) rfl rfl⟩

/-! ## Claim C5: the calculate tool -/

/-- **C5.**  For all numbers `a` and `b`, `calculate` returns
`{result: a+b}`, `{result: a-b}`, `{result: a*b}` for the three basic
operations; `divide` returns `{result: a/b}` when `b ≠ 0` and fails
with `Division by zero` when `b = 0`; and every other operation string
fails with `Invalid operation`. -/
theorem c5_calculate :
    ∀ a b : ℚ,
      calculateExecute (calcParams "add" (.num a) (.num b)) =
        .ok (.obj [("result", .num (a + b))]) ∧
      calculateExecute (calcParams "subtract" (.num a) (.num b)) =
        .ok (.obj [("result", .num (a - b))]) ∧
      calculateExecute (calcParams "multiply" (.num a) (.num b)) =
        .ok (.obj [("result", .num (a * b))]) ∧
      (b ≠ 0 → calculateExecute (calcParams "divide" (.num a) (.num b)) =
        .ok (.obj [("result", .num (a / b))])) ∧
      calculateExecute (calcParams "divide" (.num a) (.num 0)) = .error "Division by zero" ∧
      (∀ s : String, s ∉ (["add", "subtract", "multiply", "divide"] : List String) →
        calculateExecute (calcParams s (.num a) (.num b)) = .error "Invalid operation") := by
  intro a b
  refine ⟨rfl, rfl, rfl, ?_, ?_, ?_⟩
  · intro hb
    have hbeq : (b == (0 : ℚ)) = false := beq_eq_false_iff_ne.mpr hb
    show (if numEqZero (.num b) = true then (throw "Division by zero" : Except String JVal)
      else pure (.obj [("result", jsDiv (.num a) (.num b))])) = _
    rw [show numEqZero (.num b) = (b == (0 : ℚ)) from rfl, hbeq]
    rfl
  · rfl
  · intro s hs
    have h1 : (s == "add") = false :=
      beq_eq_false_iff_ne.mpr (fun e => hs (by rw [e]; simp))
    have h2 : (s == "subtract") = false :=
      beq_eq_false_iff_ne.mpr (fun e => hs (by rw [e]; simp))
    have h3 : (s == "multiply") = false :=
      beq_eq_false_iff_ne.mpr (fun e => hs (by rw [e]; simp))
    have h4 : (s == "divide") = false :=
      beq_eq_false_iff_ne.mpr (fun e => hs (by rw [e]; simp))
    show (if strEqLit (.str s) "add" = true then _
      else if strEqLit (.str s) "subtract" = true then _
      else if strEqLit (.str s) "multiply" = true then _
      else if strEqLit (.str s) "divide" = true then _
      else (throw "Invalid operation" : Except String JVal)) = .error "Invalid operation"
    rw [show strEqLit (.str s) "add" = (s == "add") from rfl,
      show strEqLit (.str s) "subtract" = (s == "subtract") from rfl,
      show strEqLit (.str s) "multiply" = (s == "multiply") from rfl,
      show strEqLit (.str s) "divide" = (s == "divide") from rfl,
      h1, h2, h3, h4]
    rfl

/-- Witness for C5: a nonzero division and an unknown operation. -/
theorem c5_calculate_witness :
    (2 : ℚ) ≠ 0 ∧
    calculateExecute (calcParams "divide" (.num 1) (.num 2)) =
      .ok (.obj [("result", .num (1 / 2))]) ∧
    ("modulo" : String) ∉ (["add", "subtract", "multiply", "divide"] : List String) ∧
    calculateExecute (calcParams "modulo" (.num 1) (.num 2)) = .error "Invalid operation" :=
  ⟨by decide, (c5_calculate 1 2).2.2.2.1 (by decide),
    by decide, (c5_calculate 1 2).2.2.2.2.2 "modulo" (by decide)⟩

/-! ## Claims C6 and C10: jsonProcess validate -/

theorem validateFields_cons (v : JVal) (key : String) (ty : JVal)
    (rest : List (String × JVal)) :
    validateFields v ((key, ty) :: rest) =
      (match validateField (jsGetField v key) ty with
        | .ok true => validateFields v rest
        | .ok false => .ok false
        | .error e => .error e) := by
  rw [validateFields]
  cases validateField (jsGetField v key) ty with
  | error e => rfl
  | ok b => cases b with
    | true => rfl
    | false => rfl

theorem validateFields_ok_iff (v : JVal) (fields : List (String × JVal)) :
    validateFields v fields = .ok true ↔
      ∀ p ∈ fields, validateField (jsGetField v p.1) p.2 = .ok true := by
  induction fields with
  | nil => simp [validateFields]; rfl
  | cons p rest ih =>
    obtain ⟨key, ty⟩ := p
    rw [validateFields_cons]
    constructor
    · intro h
      cases hv : validateField (jsGetField v key) ty with
      | error e => rw [hv] at h; exact absurd h (by simp)
      | ok b =>
        cases b with
        | false => rw [hv] at h; exact absurd h (by simp)
        | true =>
          rw [hv] at h
          intro q hq
          rcases List.mem_cons.mp hq with hq | hq
          · rw [hq]; exact hv
          · exact ih.mp h q hq
    · intro h
      have h1 := h (key, ty) (List.mem_cons_self _ _)
      rw [h1]
      exact ih.mpr (fun q hq => h q (List.mem_cons_of_mem _ hq))

theorem validateFields_congr (v w : JVal) (fields : List (String × JVal))
    (h : ∀ p ∈ fields, jsGetField v p.1 = jsGetField w p.1) :
    validateFields v fields = validateFields w fields := by
  induction fields with
  | nil => rfl
  | cons p rest ih =>
    obtain ⟨key, ty⟩ := p
    rw [validateFields_cons, validateFields_cons,
      h (key, ty) (List.mem_cons_self _ _),
      ih (fun q hq => h q (List.mem_cons_of_mem _ hq))]

theorem lookup_append_single {k k0 : String} (dfs : List (String × JVal)) (x : JVal)
    (hk : k ≠ k0) : List.lookup k (dfs ++ [(k0, x)]) = List.lookup k dfs := by
  induction dfs with
  | nil =>
    show List.lookup k [(k0, x)] = none
    simp [List.lookup, beq_eq_false_iff_ne.mpr hk]
  | cons p rest ih =>
    obtain ⟨a, bv⟩ := p
    rw [List.cons_append]
    simp only [List.lookup]
    rw [ih]

/-- **C6.**  `jsonProcess` validate implements the recursive matching
relation of the specification: a string schema leaf checks the runtime
type; an object schema node fails on any value that is not a truthy
object (in particular a missing sub-object) and otherwise requires
every declared key to validate recursively; keys of the data not
mentioned by the schema never affect the result; and the two
specification examples evaluate to `{isValid: true}` and
`{isValid: false}`. -/
theorem c6_validate_matches_schema :
    (∀ (v : JVal) (s : String), validateField v (.str s) = .ok (jsTypeof v == s)) ∧
    (∀ (v : JVal) (fields : List (String × JVal)),
      jsTruthy v = false ∨ jsTypeof v ≠ "object" →
      validateField v (.obj fields) = .ok false) ∧
    (∀ (dfs fields : List (String × JVal)),
      validateField (.obj dfs) (.obj fields) = .ok true ↔
        ∀ p ∈ fields, validateField (jsGetField (.obj dfs) p.1) p.2 = .ok true) ∧
    (∀ (dfs fields : List (String × JVal)) (k0 : String) (x : JVal),
      (∀ p ∈ fields, p.1 ≠ k0) →
      validateField (.obj (dfs ++ [(k0, x)])) (.obj fields) =
        validateField (.obj dfs) (.obj fields)) ∧
    (jsonProcessExecute (.obj [("operation", .str "validate"),
        ("data", .obj [("name", .str "John"), ("age", .num 30)]),
        ("schema", .obj [("name", .str "string"), ("age", .str "number")])]) =
      .ok (.obj [("isValid", .bool true)])) ∧
    (jsonProcessExecute (.obj [("operation", .str "validate"),
        ("data", .obj [("name", .str "John"), ("age", .str "30")]),
        ("schema", .obj [("name", .str "string"), ("age", .str "number")])]) =
      .ok (.obj [("isValid", .bool false)])) := by
  refine ⟨fun v s => rfl, ?_, ?_, ?_, rfl, rfl⟩
  · intro v fields h
    rw [validateField]
    have hc : (!jsTruthy v || jsTypeof v != "object") = true := by
      rcases h with h | h
      · rw [h]; rfl
      · have hb : (jsTypeof v == "object") = false := beq_eq_false_iff_ne.mpr h
        simp [bne, hb]
    rw [hc]
    rfl
  · intro dfs fields
    have e : validateField (.obj dfs) (.obj fields) = validateFields (.obj dfs) fields := rfl
    rw [e]
    exact validateFields_ok_iff (.obj dfs) fields
  · intro dfs fields k0 x hk
    have e1 : validateField (.obj (dfs ++ [(k0, x)])) (.obj fields) =
        validateFields (.obj (dfs ++ [(k0, x)])) fields := rfl
    have e2 : validateField (.obj dfs) (.obj fields) = validateFields (.obj dfs) fields := rfl
    rw [e1, e2]
    apply validateFields_congr
    intro p hp
    show jsGetField (.obj (dfs ++ [(k0, x)])) p.1 = jsGetField (.obj dfs) p.1
    have hl : List.lookup p.1 (dfs ++ [(k0, x)]) = List.lookup p.1 dfs :=
      lookup_append_single dfs x (hk p hp)
    simp only [jsGetField, hl]

/-- Witness for C6 at concrete inputs for the hypothesis-bearing
conjuncts. -/
theorem c6_validate_matches_schema_witness :
    validateField .undefined (.obj [("a", .str "string")]) = .ok false ∧
    validateField (.obj [("b", .num 1), ("k", .bool true)]) (.obj [("b", .str "number")]) =
      validateField (.obj [("b", .num 1)]) (.obj [("b", .str "number")]) :=
  ⟨c6_validate_matches_schema.2.1 .undefined [("a", .str "string")] (Or.inl rfl),
    c6_validate_matches_schema.2.2.2.1 [("b", .num 1)] [("b", .str "number")] "k" (.bool true)
      (by decide)⟩

/-- **C10.**  Any schema node that is neither a string nor a non-array
`typeof`-object — booleans, numbers, arrays, `undefined` — validates
every data value, so `{operation:"validate", data, schema:[]}` answers
`{isValid: true}` for every `data`: array positions in a schema are
never checked. -/
theorem c10_non_object_schema_validates_everything :
    (∀ (v : JVal) (b : Bool), validateField v (.bool b) = .ok true) ∧
    (∀ (v : JVal) (q : ℚ), validateField v (.num q) = .ok true) ∧
    (∀ (v : JVal) (es : List JVal), validateField v (.arr es) = .ok true) ∧
    (∀ v : JVal, validateField v .undefined = .ok true) ∧
    (∀ data : JVal,
      jsonProcessExecute (.obj [("operation", .str "validate"), ("data", data),
        ("schema", .arr [])]) = .ok (.obj [("isValid", .bool true)])) :=
  ⟨fun _ _ => rfl, fun _ _ => rfl, fun _ _ => rfl, fun _ => rfl, fun _ => rfl⟩

/-! ## Claim C8: jsonProcess transform, pure semantics -/

theorem transformStep_eq (root t : JVal) (s : String)
    (hp : jsIndexE t "path" = .ok (.str s)) :
    transformStep root t =
      (match navMut root (splitDot s) (applyMut t) with
        | .ok (some r) => .ok r
        | .ok none => .ok root
        | .error e => .error e) := by
  have e1 : transformStep root t =
      (navMut root (splitDot s) (applyMut t) >>= fun o =>
        match o with
        | some r => pure r
        | none => pure root) := by
    rw [transformStep, hp]
    rfl
  rw [e1]
  cases hn : navMut root (splitDot s) (applyMut t) with
  | error e => rfl
  | ok o => cases o <;> rfl

/-- **C8.**  The transform branch applies the transformations in array
order, each seeing the effects of the earlier ones (conjuncts 1 and 5);
one step navigates the dot-separated path and applies the mutation
returned by the navigation, or leaves the value unchanged when the
navigation was cut short (conjunct 2); the mutations are exactly
`rename` (copy to the `newPath` key, then remove the old key),
`delete`, and `add` (conjunct 3); and a falsy intermediate path segment
silently skips the transformation (conjunct 4), with later
transformations still applied (conjunct 5). -/
theorem c8_transform_in_order :
    (∀ (root t : JVal) (ts : List JVal),
      transformList root (t :: ts) =
        transformStep root t >>= fun r => transformList r ts) ∧
    (∀ (root t : JVal) (s : String), jsIndexE t "path" = .ok (.str s) →
      (∀ r, navMut root (splitDot s) (applyMut t) = .ok (some r) →
        transformStep root t = .ok r) ∧
      (navMut root (splitDot s) (applyMut t) = .ok none → transformStep root t = .ok root)) ∧
    (∀ (t parent : JVal) (last : String),
      (jsGetField t "operation" = .str "rename" →
        jsTruthy (jsGetField t "newPath") = true →
        applyMut t parent last =
          jsDelField (jsSetField parent (jsDisplay (jsGetField t "newPath"))
            (jsGetField parent last)) last) ∧
      (jsGetField t "operation" = .str "delete" →
        applyMut t parent last = jsDelField parent last) ∧
      (jsGetField t "operation" = .str "add" →
        applyMut t parent last = jsSetField parent last (jsGetField t "value"))) ∧
    (∀ (dfs : List (String × JVal)) (p : String) (rest : List String)
        (f : JVal → String → JVal),
      rest ≠ [] → jsTruthy (jsGetField (.obj dfs) p) = false →
      navMut (.obj dfs) (p :: rest) f = .ok none) ∧
    (∀ (root t : JVal) (ts : List JVal), transformStep root t = .ok root →
      transformList root (t :: ts) = transformList root ts) := by
  refine ⟨fun root t ts => rfl, ?_, ?_, ?_, ?_⟩
  · intro root t s hp
    constructor
    · intro r hn
      rw [transformStep_eq root t s hp, hn]
    · intro hn
      rw [transformStep_eq root t s hp, hn]
  · intro t parent last
    refine ⟨?_, ?_, ?_⟩
    · intro hop hnp
      rw [applyMut, hop]
      show (if jsTruthy (jsGetField t "newPath") = true then _ else _) = _
      rw [hnp]
      simp only [if_true]
    · intro hop
      rw [applyMut, hop]
      rfl
    · intro hop
      rw [applyMut, hop]
      rfl
  · intro dfs p rest f hrest hfalsy
    cases rest with
    | nil => exact absurd rfl hrest
    | cons q rest' =>
      have e1 : navMut (.obj dfs) (p :: q :: rest') f =
          (if jsTruthy (jsGetField (.obj dfs) p) = true then
            (navMut (jsGetField (.obj dfs) p) (q :: rest') f >>= fun o =>
              match o with
              | none => pure none
              | some child' => pure (some (jsSetField (.obj dfs) p child')))
          else pure none) := rfl
      rw [e1, hfalsy]
      rfl
  · intro root t ts h
    show transformStep root t >>= (fun r => transformList r ts) = transformList root ts
    rw [h]
    rfl

/-- Witness for C8: a concrete rename, a skipped missing path, and the
continuation after a skipped transformation. -/
theorem c8_transform_in_order_witness :
    transformStep (.obj [("oldName", .str "John")])
        (.obj [("operation", .str "rename"), ("path", .str "oldName"),
          ("newPath", .str "name")]) =
      .ok (.obj [("name", .str "John")]) ∧
    navMut (.obj []) ["a", "b"]
        (applyMut (.obj [("operation", .str "delete"), ("path", .str "a.b")])) = .ok none ∧
    applyMut (.obj [("operation", .str "delete"), ("path", .str "x")])
        (.obj [("x", .num 1)]) "x" =
      jsDelField (.obj [("x", .num 1)]) "x" ∧
    transformList (.obj []) [.obj [("operation", .str "delete"), ("path", .str "a.b")]] =
      transformList (.obj []) [] :=
  ⟨((c8_transform_in_order.2.1 (.obj [("oldName", .str "John")])
      (.obj [("operation", .str "rename"), ("path", .str "oldName"), ("newPath", .str "name")])
      "oldName" rfl).1 (.obj [("name", .str "John")]) rfl),
    c8_transform_in_order.2.2.2.1 [] "a" ["b"]
      (applyMut (.obj [("operation", .str "delete"), ("path", .str "a.b")]))
      (by simp) rfl,
    (c8_transform_in_order.2.2.1 (.obj [("operation", .str "delete"), ("path", .str "x")])
      (.obj [("x", .num 1)]) "x").2.1 rfl,
    c8_transform_in_order.2.2.2.2 (.obj [])
      (.obj [("operation", .str "delete"), ("path", .str "a.b")]) [] rfl⟩

theorem refGE_mono {n₀ n₁ : Nat} (hle : n₀ ≤ n₁) {v : HVal} (h : refGE n₁ v) : refGE n₀ v := by
  cases v with
  | ref a => exact le_trans hle h
  | _ => trivial

theorem nodeGE_mono {n₀ n₁ : Nat} (hle : n₀ ≤ n₁) {n : HNode} (h : nodeGE n₁ n) :
    nodeGE n₀ n := by
  cases n with
  | hobj fs => exact fun p hp => refGE_mono hle (h p hp)
  | harr es => exact fun v hv => refGE_mono hle (h v hv)

theorem setMem_same (m : Nat → Option HNode) (a : Nat) (n : HNode) :
    setMem m a n a = some n := by
  simp [setMem]

theorem setMem_other (m : Nat → Option HNode) (a : Nat) (n : HNode) {b : Nat} (h : b ≠ a) :
    setMem m a n b = m b := by
  simp [setMem, h]

mutual

theorem mat_spec : ∀ (v : JVal) (h : Heap),
    h.next ≤ (materialize v h).2.next ∧
    (∀ a, a < h.next → (materialize v h).2.mem a = h.mem a) ∧
    (∀ a n, (materialize v h).2.mem a = some n →
      h.mem a = some n ∨ (h.next ≤ a ∧ nodeGE h.next n)) ∧
    refGE h.next (materialize v h).1 ∧
    (∀ a, (materialize v h).2.next ≤ a → (materialize v h).2.mem a = h.mem a)
  | .undefined, h => ⟨le_refl _, fun _ _ => rfl, fun _ _ hm => Or.inl hm, trivial, fun _ _ => rfl⟩
  | .null, h => ⟨le_refl _, fun _ _ => rfl, fun _ _ hm => Or.inl hm, trivial, fun _ _ => rfl⟩
  | .bool b, h => ⟨le_refl _, fun _ _ => rfl, fun _ _ hm => Or.inl hm, trivial, fun _ _ => rfl⟩
  | .num q, h => ⟨le_refl _, fun _ _ => rfl, fun _ _ hm => Or.inl hm, trivial, fun _ _ => rfl⟩
  | .str s, h => ⟨le_refl _, fun _ _ => rfl, fun _ _ hm => Or.inl hm, trivial, fun _ _ => rfl⟩
  | .arr es, h => by
    obtain ⟨m1, f1, n1, u1, v1⟩ := matElems_spec es h
    refine ⟨?_, ?_, ?_, ?_, ?_⟩
    · exact le_trans m1 (Nat.le_succ _)
    · intro a ha
      have hne : a ≠ (materializeElems es h).2.next := by
        have := lt_of_lt_of_le ha m1
        omega
      show setMem (materializeElems es h).2.mem (materializeElems es h).2.next
        (.harr (materializeElems es h).1) a = h.mem a
      rw [setMem_other _ _ _ hne, f1 a ha]
    · intro a n hm
      have hm' : setMem (materializeElems es h).2.mem (materializeElems es h).2.next
          (.harr (materializeElems es h).1) a = some n := hm
      by_cases he : a = (materializeElems es h).2.next
      · rw [he, setMem_same] at hm'
        injection hm' with hm''
        refine Or.inr ⟨he ▸ m1, ?_⟩
        rw [← hm'']
        exact fun x hx => v1 x hx
      · rw [setMem_other _ _ _ he] at hm'
        exact n1 a n hm'
    · show h.next ≤ (materializeElems es h).2.next
      exact m1
    · intro a ha
      have hne : a ≠ (materializeElems es h).2.next := by
        have : (materializeElems es h).2.next + 1 ≤ a := ha
        omega
      show setMem (materializeElems es h).2.mem (materializeElems es h).2.next
        (.harr (materializeElems es h).1) a = h.mem a
      rw [setMem_other _ _ _ hne, u1 a (by have : (materializeElems es h).2.next + 1 ≤ a := ha; omega)]
  | .obj fs, h => by
    obtain ⟨m1, f1, n1, u1, v1⟩ := matFields_spec fs h
    refine ⟨?_, ?_, ?_, ?_, ?_⟩
    · exact le_trans m1 (Nat.le_succ _)
    · intro a ha
      have hne : a ≠ (materializeFields fs h).2.next := by
        have := lt_of_lt_of_le ha m1
        omega
      show setMem (materializeFields fs h).2.mem (materializeFields fs h).2.next
        (.hobj (materializeFields fs h).1) a = h.mem a
      rw [setMem_other _ _ _ hne, f1 a ha]
    · intro a n hm
      have hm' : setMem (materializeFields fs h).2.mem (materializeFields fs h).2.next
          (.hobj (materializeFields fs h).1) a = some n := hm
      by_cases he : a = (materializeFields fs h).2.next
      · rw [he, setMem_same] at hm'
        injection hm' with hm''
        refine Or.inr ⟨he ▸ m1, ?_⟩
        rw [← hm'']
        exact fun p hp => v1 p hp
      · rw [setMem_other _ _ _ he] at hm'
        exact n1 a n hm'
    · show h.next ≤ (materializeFields fs h).2.next
      exact m1
    · intro a ha
      have hne : a ≠ (materializeFields fs h).2.next := by
        have : (materializeFields fs h).2.next + 1 ≤ a := ha
        omega
      show setMem (materializeFields fs h).2.mem (materializeFields fs h).2.next
        (.hobj (materializeFields fs h).1) a = h.mem a
      rw [setMem_other _ _ _ hne,
        u1 a (by have : (materializeFields fs h).2.next + 1 ≤ a := ha; omega)]

theorem matElems_spec : ∀ (es : List JVal) (h : Heap),
    h.next ≤ (materializeElems es h).2.next ∧
    (∀ a, a < h.next → (materializeElems es h).2.mem a = h.mem a) ∧
    (∀ a n, (materializeElems es h).2.mem a = some n →
      h.mem a = some n ∨ (h.next ≤ a ∧ nodeGE h.next n)) ∧
    (∀ a, (materializeElems es h).2.next ≤ a → (materializeElems es h).2.mem a = h.mem a) ∧
    (∀ x ∈ (materializeElems es h).1, refGE h.next x)
  | [], h => ⟨le_refl _, fun _ _ => rfl, fun _ _ hm => Or.inl hm, fun _ _ => rfl,
      fun x hx => absurd hx (List.not_mem_nil x)⟩
  | e :: rest, h => by
    obtain ⟨m1, f1, n1, r1, u1⟩ := mat_spec e h
    obtain ⟨m2, f2, n2, u2, v2⟩ := matElems_spec rest (materialize e h).2
    refine ⟨le_trans m1 m2, ?_, ?_, ?_, ?_⟩
    · intro a ha
      show (materializeElems rest (materialize e h).2).2.mem a = h.mem a
      rw [f2 a (lt_of_lt_of_le ha m1), f1 a ha]
    · intro a n hm
      have hm' : (materializeElems rest (materialize e h).2).2.mem a = some n := hm
      rcases n2 a n hm' with h' | ⟨ha, hnge⟩
      · rcases n1 a n h' with h'' | ⟨ha2, hn2⟩
        · exact Or.inl h''
        · exact Or.inr ⟨ha2, hn2⟩
      · exact Or.inr ⟨le_trans m1 ha, nodeGE_mono m1 hnge⟩
    · intro a ha
      have ha' : (materializeElems rest (materialize e h).2).2.next ≤ a := ha
      show (materializeElems rest (materialize e h).2).2.mem a = h.mem a
      rw [u2 a ha', u1 a (le_trans m2 ha')]
    · intro x hx
      have hx' : x ∈ (materialize e h).1 :: (materializeElems rest (materialize e h).2).1 := hx
      rcases List.mem_cons.mp hx' with he | hxs
      · rw [he]; exact r1
      · exact refGE_mono m1 (v2 x hxs)

theorem matFields_spec : ∀ (fs : List (String × JVal)) (h : Heap),
    h.next ≤ (materializeFields fs h).2.next ∧
    (∀ a, a < h.next → (materializeFields fs h).2.mem a = h.mem a) ∧
    (∀ a n, (materializeFields fs h).2.mem a = some n →
      h.mem a = some n ∨ (h.next ≤ a ∧ nodeGE h.next n)) ∧
    (∀ a, (materializeFields fs h).2.next ≤ a → (materializeFields fs h).2.mem a = h.mem a) ∧
    (∀ p ∈ (materializeFields fs h).1, refGE h.next p.2)
  | [], h => ⟨le_refl _, fun _ _ => rfl, fun _ _ hm => Or.inl hm, fun _ _ => rfl,
      fun p hp => absurd hp (List.not_mem_nil p)⟩
  | p :: rest, h => by
    obtain ⟨m1, f1, n1, r1, u1⟩ := mat_spec p.2 h
    obtain ⟨m2, f2, n2, u2, v2⟩ := matFields_spec rest (materialize p.2 h).2
    refine ⟨le_trans m1 m2, ?_, ?_, ?_, ?_⟩
    · intro a ha
      show (materializeFields rest (materialize p.2 h).2).2.mem a = h.mem a
      rw [f2 a (lt_of_lt_of_le ha m1), f1 a ha]
    · intro a n hm
      have hm' : (materializeFields rest (materialize p.2 h).2).2.mem a = some n := hm
      rcases n2 a n hm' with h' | ⟨ha, hnge⟩
      · rcases n1 a n h' with h'' | ⟨ha2, hn2⟩
        · exact Or.inl h''
        · exact Or.inr ⟨ha2, hn2⟩
      · exact Or.inr ⟨le_trans m1 ha, nodeGE_mono m1 hnge⟩
    · intro a ha
      have ha' : (materializeFields rest (materialize p.2 h).2).2.next ≤ a := ha
      show (materializeFields rest (materialize p.2 h).2).2.mem a = h.mem a
      rw [u2 a ha', u1 a (le_trans m2 ha')]
    · intro q hq
      have hq' : q ∈ (p.1, (materialize p.2 h).1) ::
          (materializeFields rest (materialize p.2 h).2).1 := hq
      rcases List.mem_cons.mp hq' with he | hqs
      · rw [he]; exact r1
      · exact refGE_mono m1 (v2 q hqs)

end

theorem lookup_mem_val {fs : List (String × HVal)} {k : String} {v : HVal}
    (h : List.lookup k fs = some v) : ∃ k', (k', v) ∈ fs := by
  induction fs with
  | nil => exact absurd h (by simp [List.lookup])
  | cons p rest ih =>
    obtain ⟨a, b⟩ := p
    rw [List.lookup] at h
    by_cases he : (k == a) = true
    · rw [he] at h
      injection h with h2
      exact ⟨a, by rw [← h2]; exact List.mem_cons_self _ _⟩
    · rw [Bool.not_eq_true] at he
      rw [he] at h
      obtain ⟨k', hm⟩ := ih h
      exact ⟨k', List.mem_cons_of_mem _ hm⟩

theorem nodeGE_get {n₀ : Nat} {n : HNode} (h : nodeGE n₀ n) (k : String) :
    refGE n₀ (n.get k) := by
  cases n with
  | hobj fs =>
    show refGE n₀ (match fs.lookup k with | some v => v | none => .undefined)
    cases hl : fs.lookup k with
    | none => trivial
    | some v =>
      obtain ⟨k', hm⟩ := lookup_mem_val hl
      exact h (k', v) hm
  | harr es =>
    show refGE n₀ (if k = "length" then _ else _)
    by_cases hk : k = "length"
    · rw [if_pos hk]; trivial
    · rw [if_neg hk]
      cases hi : strIndex k with
      | none => trivial
      | some i =>
        show refGE n₀ (es.getD i .undefined)
        show refGE n₀ ((es.get? i).getD .undefined)
        cases hg : es.get? i with
        | none => trivial
        | some x => exact h x (List.get?_mem hg)

theorem refGE_strGetH (n₀ : Nat) (s k : String) : refGE n₀ (strGetH s k) := by
  rw [strGetH]
  split
  · trivial
  · split
    · split
      · trivial
      · trivial
    · trivial

theorem hIndexE_refGE {h : Heap} {n₀ : Nat} (hr : regionOK h n₀) {cur : HVal}
    (hcur : refGE n₀ cur) (k : String) {v : HVal} (hv : hIndexE h cur k = .ok v) :
    refGE n₀ v := by
  cases cur with
  | null => exact absurd hv (by simp [hIndexE])
  | undefined => exact absurd hv (by simp [hIndexE])
  | bool b =>
    have hv' : Except.ok HVal.undefined = Except.ok v := hv
    injection hv' with h2
    rw [← h2]; trivial
  | num q =>
    have hv' : Except.ok HVal.undefined = Except.ok v := hv
    injection hv' with h2
    rw [← h2]; trivial
  | str s =>
    have hv' : Except.ok (strGetH s k) = Except.ok v := hv
    injection hv' with h2
    rw [← h2]
    exact refGE_strGetH n₀ s k
  | ref a =>
    rw [hIndexE] at hv
    cases hm : h.mem a with
    | none => rw [hm] at hv; injection hv with h2; rw [← h2]; trivial
    | some n =>
      rw [hm] at hv
      injection hv with h2
      rw [← h2]
      exact nodeGE_get (hr a n hcur hm) k

theorem navParentH_refGE {h : Heap} {n₀ : Nat} (hr : regionOK h n₀) :
    ∀ (parts : List String) (cur : HVal), refGE n₀ cur →
      ∀ pr, navParentH h cur parts = .ok (some pr) → refGE n₀ pr.1
  | [], cur, hc, pr, hp => by
    rw [navParentH] at hp
    exact absurd hp (by simp)
  | [last], cur, hc, pr, hp => by
    rw [navParentH] at hp
    by_cases ht : hTruthy cur = true
    · rw [if_pos ht] at hp
      injection hp with h2
      injection h2 with h3
      rw [← h3]
      exact hc
    · rw [Bool.not_eq_true] at ht
      rw [ht] at hp
      simp at hp
  | p :: q :: rest, cur, hc, pr, hp => by
    rw [navParentH] at hp
    cases hi : hIndexE h cur p with
    | error e => rw [hi] at hp; exact absurd hp (by simp)
    | ok child =>
      rw [hi] at hp
      have hp' : (if hTruthy child = true then navParentH h child (q :: rest)
          else Except.ok none) = .ok (some pr) := hp
      by_cases ht : hTruthy child = true
      · rw [if_pos ht] at hp'
        exact navParentH_refGE hr (q :: rest) child (hIndexE_refGE hr hc p hi) pr hp'
      · rw [if_neg ht] at hp'
        simp at hp'

theorem mem_setAssocH {fs : List (String × HVal)} {k : String} {x : HVal} {p : String × HVal}
    (h : p ∈ setAssocH fs k x) : p ∈ fs ∨ p.2 = x := by
  induction fs with
  | nil =>
    rw [setAssocH] at h
    rcases List.mem_cons.mp h with h | h
    · exact Or.inr (by rw [h])
    · exact absurd h (List.not_mem_nil p)
  | cons q rest ih =>
    obtain ⟨k', v'⟩ := q
    rw [setAssocH] at h
    by_cases he : k' = k
    · rw [if_pos he] at h
      rcases List.mem_cons.mp h with h | h
      · exact Or.inr (by rw [h])
      · exact Or.inl (List.mem_cons_of_mem _ h)
    · rw [if_neg he] at h
      rcases List.mem_cons.mp h with h | h
      · exact Or.inl (h ▸ List.mem_cons_self _ _)
      · rcases ih h with h | h
        · exact Or.inl (List.mem_cons_of_mem _ h)
        · exact Or.inr h

theorem nodeGE_set {n₀ : Nat} {n : HNode} (hn : nodeGE n₀ n) {x : HVal} (hx : refGE n₀ x)
    (k : String) : nodeGE n₀ (n.set k x) := by
  cases n with
  | hobj fs =>
    intro p hp
    rcases mem_setAssocH hp with h | h
    · exact hn p h
    · rw [h]; exact hx
  | harr es =>
    show nodeGE n₀ (match strIndex k with
      | some i =>
        if i < es.length then HNode.harr (es.set i x)
        else if i = es.length then HNode.harr (es ++ [x])
        else HNode.harr es
      | none => HNode.harr es)
    cases hi : strIndex k with
    | none => exact hn
    | some i =>
      show nodeGE n₀ (if i < es.length then HNode.harr (es.set i x)
        else if i = es.length then HNode.harr (es ++ [x]) else HNode.harr es)
      by_cases hlt : i < es.length
      · rw [if_pos hlt]
        intro v hv
        rcases List.mem_or_eq_of_mem_set hv with h | h
        · exact hn v h
        · rw [h]; exact hx
      · rw [if_neg hlt]
        by_cases heq : i = es.length
        · rw [if_pos heq]
          intro v hv
          rcases List.mem_append.mp hv with h | h
          · exact hn v h
          · rw [List.mem_singleton.mp h]; exact hx
        · rw [if_neg heq]
          exact hn

theorem nodeGE_del {n₀ : Nat} {n : HNode} (hn : nodeGE n₀ n) (k : String) :
    nodeGE n₀ (n.del k) := by
  cases n with
  | hobj fs =>
    intro p hp
    exact hn p (List.mem_of_mem_filter hp)
  | harr es =>
    show nodeGE n₀ (match strIndex k with
      | some i => if i < es.length then HNode.harr (es.set i .undefined) else HNode.harr es
      | none => HNode.harr es)
    cases hi : strIndex k with
    | none => exact hn
    | some i =>
      show nodeGE n₀ (if i < es.length then HNode.harr (es.set i .undefined) else HNode.harr es)
      by_cases hlt : i < es.length
      · rw [if_pos hlt]
        intro v hv
        rcases List.mem_or_eq_of_mem_set hv with h | h
        · exact hn v h
        · rw [h]; trivial
      · rw [if_neg hlt]
        exact hn

theorem writeField_spec {h : Heap} {n₀ a : Nat} (hr : regionOK h n₀) (ha : n₀ ≤ a)
    {x : HVal} (hx : refGE n₀ x) (k : String) :
    regionOK (writeField h a k x) n₀ ∧ (writeField h a k x).next = h.next ∧
      (∀ b, b < n₀ → (writeField h a k x).mem b = h.mem b) := by
  rw [writeField]
  cases hm : h.mem a with
  | none => exact ⟨hr, rfl, fun _ _ => rfl⟩
  | some n =>
    refine ⟨?_, rfl, ?_⟩
    · intro b nb hb hmem
      have hmem' : setMem h.mem a (n.set k x) b = some nb := hmem
      by_cases he : b = a
      · rw [he, setMem_same] at hmem'
        injection hmem' with h2
        rw [← h2]
        exact nodeGE_set (hr a n ha hm) hx k
      · rw [setMem_other _ _ _ he] at hmem'
        exact hr b nb hb hmem'
    · intro b hb
      have he : b ≠ a := by omega
      show setMem h.mem a (n.set k x) b = h.mem b
      exact setMem_other _ _ _ he

theorem delField_spec {h : Heap} {n₀ a : Nat} (hr : regionOK h n₀) (ha : n₀ ≤ a)
    (k : String) :
    regionOK (delField h a k) n₀ ∧ (delField h a k).next = h.next ∧
      (∀ b, b < n₀ → (delField h a k).mem b = h.mem b) := by
  rw [delField]
  cases hm : h.mem a with
  | none => exact ⟨hr, rfl, fun _ _ => rfl⟩
  | some n =>
    refine ⟨?_, rfl, ?_⟩
    · intro b nb hb hmem
      have hmem' : setMem h.mem a (n.del k) b = some nb := hmem
      by_cases he : b = a
      · rw [he, setMem_same] at hmem'
        injection hmem' with h2
        rw [← h2]
        exact nodeGE_del (hr a n ha hm) k
      · rw [setMem_other _ _ _ he] at hmem'
        exact hr b nb hb hmem'
    · intro b hb
      have he : b ≠ a := by omega
      show setMem h.mem a (n.del k) b = h.mem b
      exact setMem_other _ _ _ he

/-- A successful transformation step preserves the clone-region
invariant and never reads or writes an address below `n₀`: the heap
below the region is untouched. -/
theorem transformStepH_spec {h : Heap} {n₀ : Nat} (hr : regionOK h n₀) (hn : n₀ ≤ h.next)
    {root : HVal} (hroot : refGE n₀ root) (t : JVal) :
    ∀ h', transformStepH h root t = .ok h' →
      regionOK h' n₀ ∧ n₀ ≤ h'.next ∧ (∀ a, a < n₀ → h'.mem a = h.mem a) := by
  intro h' hstep
  have triv : ∀ hh : Heap, regionOK hh n₀ → n₀ ≤ hh.next →
      (Except.ok hh : Except String Heap) = Except.ok h' →
      regionOK h' n₀ ∧ n₀ ≤ h'.next ∧ (∀ a, a < n₀ → h'.mem a = hh.mem a) := by
    intro hh hrr hnn he
    injection he with h2
    rw [← h2]
    exact ⟨hrr, hnn, fun _ _ => rfl⟩
  rw [transformStepH] at hstep
  split at hstep
  any_goals exact Except.noConfusion hstep
  next s hpath =>
  split at hstep
  · exact Except.noConfusion hstep
  · exact triv h hr hn hstep
  next pr hnav =>
  have hpr : refGE n₀ pr.1 := navParentH_refGE hr (splitDot s) root hroot pr hnav
  split at hstep
  · -- rename
    split at hstep
    · -- truthy newPath
      split at hstep
      next a hpa =>
        split at hstep
        · exact Except.noConfusion hstep
        next v hv =>
          have ha : n₀ ≤ a := by rw [hpa] at hpr; exact hpr
          have hvge : refGE n₀ v := hIndexE_refGE hr (show refGE n₀ (HVal.ref a) from ha) pr.2 hv
          obtain ⟨hr1, hn1, hf1⟩ :=
            writeField_spec hr ha hvge (jsDisplay (jsGetField t "newPath"))
          obtain ⟨hr2, hn2, hf2⟩ := delField_spec hr1 ha pr.2
          injection hstep with h2
          rw [← h2]
          refine ⟨hr2, ?_, ?_⟩
          · rw [hn2, hn1]; exact hn
          · intro b hb
            rw [hf2 b hb, hf1 b hb]
      next hnr => exact triv h hr hn hstep
    · exact triv h hr hn hstep
  · split at hstep
    · -- delete
      split at hstep
      next a hpa =>
        have ha : n₀ ≤ a := by rw [hpa] at hpr; exact hpr
        obtain ⟨hr2, hn2, hf2⟩ := delField_spec hr ha pr.2
        injection hstep with h2
        rw [← h2]
        exact ⟨hr2, by rw [hn2]; exact hn, hf2⟩
      next hnr => exact triv h hr hn hstep
    · split at hstep
      · -- add
        split at hstep
        next a hpa =>
          have ha : n₀ ≤ a := by rw [hpa] at hpr; exact hpr
          obtain ⟨m1, f1, n1, r1, u1⟩ := mat_spec (jsGetField t "value") h
          have hrm : regionOK (materialize (jsGetField t "value") h).2 n₀ := by
            intro b nb hb hmem
            rcases n1 b nb hmem with hold | ⟨hb2, hnge⟩
            · exact hr b nb hb hold
            · exact nodeGE_mono hn hnge
          have hnm : n₀ ≤ (materialize (jsGetField t "value") h).2.next := le_trans hn m1
          have hx : refGE n₀ (materialize (jsGetField t "value") h).1 := refGE_mono hn r1
          obtain ⟨hr1, hn1, hf1⟩ := writeField_spec hrm ha hx pr.2
          injection hstep with h2
          rw [← h2]
          refine ⟨hr1, by rw [hn1]; exact hnm, ?_⟩
          intro b hb
          rw [hf1 b hb, f1 b (lt_of_lt_of_le hb hn)]
        next hnr => exact triv h hr hn hstep
      · exact triv h hr hn hstep

/-- The whole transformation loop preserves the clone-region invariant
and never touches an address below `n₀`, whether or not a step threw. -/
theorem transformRunH_spec {n₀ : Nat} {root : HVal} (hroot : refGE n₀ root) :
    ∀ (ts : List JVal) (h : Heap), regionOK h n₀ → n₀ ≤ h.next →
      regionOK (transformRunH root h ts).1 n₀ ∧ n₀ ≤ (transformRunH root h ts).1.next ∧
      (∀ a, a < n₀ → (transformRunH root h ts).1.mem a = h.mem a)
  | [], h, hr, hn => ⟨hr, hn, fun _ _ => rfl⟩
  | t :: ts, h, hr, hn => by
    cases hs : transformStepH h root t with
    | ok h2 =>
      have e : transformRunH root h (t :: ts) = transformRunH root h2 ts := by
        rw [transformRunH, hs]
      obtain ⟨hr1, hn1, hf1⟩ := transformStepH_spec hr hn hroot t h2 hs
      obtain ⟨hr2, hn2, hf2⟩ := transformRunH_spec hroot ts h2 hr1 hn1
      rw [e]
      exact ⟨hr2, hn2, fun a ha => (hf2 a ha).trans (hf1 a ha)⟩
    | error e2 =>
      have e : transformRunH root h (t :: ts) = (h, some e2) := by
        rw [transformRunH, hs]
      rw [e]
      exact ⟨hr, hn, fun _ _ => rfl⟩

/-- The transform branch of `jsonProcess` is a frame over the caller's
heap: every address the caller could reach is left exactly as it was,
and the returned root, when a reference, lies in the fresh region. -/
theorem transformBranchH_frame (h₀ : Heap) (dataJ : JVal) (ts : List JVal)
    (hb : Heap.bounded h₀) :
    (∀ a, a < h₀.next → (transformBranchH h₀ dataJ ts).2.1.mem a = h₀.mem a) ∧
    refGE h₀.next (transformBranchH h₀ dataJ ts).1 := by
  cases hd : deepCloneTree dataJ with
  | error e =>
    have e1 : transformBranchH h₀ dataJ ts = (.undefined, h₀, some e) := by
      rw [transformBranchH, hd]
    rw [e1]
    exact ⟨fun _ _ => rfl, trivial⟩
  | ok dj =>
    have e1 : transformBranchH h₀ dataJ ts =
        ((materialize dj h₀).1,
         (transformRunH (materialize dj h₀).1 (materialize dj h₀).2 ts).1,
         (transformRunH (materialize dj h₀).1 (materialize dj h₀).2 ts).2) := by
      rw [transformBranchH, hd]
    obtain ⟨m1, f1, n1, r1, u1⟩ := mat_spec dj h₀
    have hr0 : regionOK (materialize dj h₀).2 h₀.next := by
      intro a n ha hm
      rcases n1 a n hm with hold | ⟨_, hnge⟩
      · rw [hb a ha] at hold
        exact Option.noConfusion hold
      · exact hnge
    obtain ⟨hr2, hn2, hf2⟩ := transformRunH_spec r1 ts (materialize dj h₀).2 hr0 m1
    rw [e1]
    refine ⟨?_, r1⟩
    intro a ha
    show (transformRunH (materialize dj h₀).1 (materialize dj h₀).2 ts).1.mem a = h₀.mem a
    rw [hf2 a ha, f1 a ha]

/-- **C7.**  The transform branch computes on a deep copy: for every
data value and transformation list, every heap address the caller
could reach before the call holds exactly the node it held before
(conjunct 1 of the general part), and the returned result, whenever it
is a reference, is a fresh address — never the same reference as any
pre-existing object, in particular never the input (conjunct 2).  In
the worked example, the caller's `{"oldName": "John"}` lives at
address 0, the result is the distinct reference 1, no error is thrown,
the result reads back as `{"name": "John"}`, and the caller's original
object still reads back as `{"oldName": "John"}`. -/
theorem c7_transform_deep_clone :
    (∀ (h₀ : Heap) (dataJ : JVal) (ts : List JVal), Heap.bounded h₀ →
      (∀ a, a < h₀.next → (transformBranchH h₀ dataJ ts).2.1.mem a = h₀.mem a) ∧
      (∀ b, (transformBranchH h₀ dataJ ts).1 = .ref b → h₀.next ≤ b)) ∧
    exStart.1 = HVal.ref 0 ∧
    exResult.1 = HVal.ref 1 ∧
    exResult.2.2 = none ∧
    readbackH exResult.2.1 2 exResult.1 = some (.obj [("name", .str "John")]) ∧
    readbackH exResult.2.1 2 exStart.1 = some (.obj [("oldName", .str "John")]) := by
  refine ⟨?_, rfl, rfl, rfl, rfl, rfl⟩
  intro h₀ dataJ ts hb
  obtain ⟨hf, href⟩ := transformBranchH_frame h₀ dataJ ts hb
  refine ⟨hf, ?_⟩
  intro b hbeq
  rw [hbeq] at href
  exact href

/-- Witness for the C7 theorem at the example: the example heap is
bounded, and the theorem's general part applied there shows the
caller's object at address 0 is untouched and the result reference is
fresh. -/
theorem c7_transform_deep_clone_witness :
    Heap.bounded exStart.2 ∧
    ((∀ a, a < exStart.2.next →
        (transformBranchH exStart.2 exData [exRename]).2.1.mem a = exStart.2.mem a) ∧
     (∀ b, (transformBranchH exStart.2 exData [exRename]).1 = .ref b →
        exStart.2.next ≤ b)) := by
  have hb : Heap.bounded exStart.2 := by
    intro a ha
    have ha' : (1 : Nat) ≤ a := ha
    show setMem (fun _ => none) 0 (HNode.hobj [("oldName", HVal.str "John")]) a = none
    rw [setMem_other _ _ _ (show a ≠ 0 by omega)]
  exact ⟨hb, c7_transform_deep_clone.1 exStart.2 exData [exRename] hb⟩
